import Mathlib

/-! RezinCatalystCore: difficulty check, cached block hasher, binary output serializer,
address book entry and the overlap check of the RocksDB import job.

A shallow embedding of `src/common/CheckDifficulty.cpp`,
`src/cryptonotecore/CachedBlock.cpp`, `src/serialization/BinaryOutputStreamSerializer.cpp`,
`src/zedwallet++/AddressBook.h` and `external/rocksdb/db/import_column_family_job.cc`,
followed by the theorems that settle the claims of the specification about them.

Machine integers are natural numbers; every operation that can wrap in the
C++ source carries its reduction modulo `2^64` (or `2^128`) explicitly.
-/

namespace Crypto

/-- A `Crypto::Hash`: thirty-two bytes (`uint8_t data[32]`). -/
structure Hash where
  data : Fin 32 → Fin 256

/-- The value-initialised hash `Crypto::Hash()`: every byte is zero. -/
def Hash.zero : Hash := ⟨fun _ => 0⟩

/-- The hash whose thirty-two bytes all equal `b`. -/
def Hash.fill (b : Fin 256) : Hash := ⟨fun _ => b⟩

/-- The thirty-two bytes `data, data + 32` of a hash, in memory order. -/
def Hash.bytes (h : Hash) : List (Fin 256) := List.ofFn h.data

end Crypto

namespace CryptoNote

open Crypto

/-- The modulus of `uint64_t` arithmetic. -/
def U64 : Nat := 2 ^ 64

/-- The modulus of `unsigned __int128` arithmetic. -/
def U128 : Nat := 2 ^ 128

/-- Modelled from the spec: `swap64le` is declared in `common/int-util.h`, which is
not part of the sources at hand. The specification reads the hash as "four
little-endian 64-bit limbs", so `swap64le(((const uint64_t *)&hash)[i])` is the
little-endian value of bytes `8 i .. 8 i + 7`: byte `8 i + j` has weight `256 ^ j`. -/
def limb (hash : Hash) (i : Fin 4) : Nat :=
  (hash.data ⟨8 * i.val, by omega⟩).val
    + 256 * (hash.data ⟨8 * i.val + 1, by omega⟩).val
    + 256 ^ 2 * (hash.data ⟨8 * i.val + 2, by omega⟩).val
    + 256 ^ 3 * (hash.data ⟨8 * i.val + 3, by omega⟩).val
    + 256 ^ 4 * (hash.data ⟨8 * i.val + 4, by omega⟩).val
    + 256 ^ 5 * (hash.data ⟨8 * i.val + 5, by omega⟩).val
    + 256 ^ 6 * (hash.data ⟨8 * i.val + 6, by omega⟩).val
    + 256 ^ 7 * (hash.data ⟨8 * i.val + 7, by omega⟩).val

/-- The function `mul(a, b, low, high)`: the 128-bit product of two 64-bit words, returned
as the pair `(low, high)` of its low and high 64-bit halves. -/
def mul (a b : Nat) : Nat × Nat :=
  let res := (a * b) % U128
  (res % U64, (res / U64) % U64)

/-- The function `cadd(a, b)`: `a + b < a` in wrapping 64-bit arithmetic. -/
def cadd (a b : Nat) : Bool :=
  decide ((a + b) % U64 < a)

/-- The function `cadc(a, b, c)`: `a + b < a || (c && a + b == (uint64_t)-1)` in wrapping
64-bit arithmetic. -/
def cadc (a b : Nat) (c : Bool) : Bool :=
  decide ((a + b) % U64 < a) || (c && decide ((a + b) % U64 = U64 - 1))

/-- The function `check_hash(hash, difficulty)` of `CheckDifficulty.cpp`. -/
def check_hash (hash : Hash) (difficulty : Nat) : Bool :=
  -- First check the highest word.
  let (top, high) := mul (limb hash 3) difficulty
  if high ≠ 0 then
    false
  else
    let (_, cur) := mul (limb hash 0) difficulty
    let (low, high) := mul (limb hash 1) difficulty
    let carry := cadd cur low
    let cur := high
    let (low, high) := mul (limb hash 2) difficulty
    let carry := cadc cur low carry
    let carry := cadc high top carry
    !carry

/-- The hash read as an unsigned 256-bit little-endian integer: byte `i` has weight
`256 ^ i`. This is the reference reading the specification compares against. -/
def hashValue (hash : Hash) : Nat :=
  ∑ i : Fin 32, (hash.data i).val * 256 ^ i.val

/-- A `BinaryArray`: `std::vector<uint8_t>`. -/
abbrev BinaryArray := List (Fin 256)

/-- Modelled from the spec: `BaseInput` is declared in `CryptoNote.h`, which is not part of
the sources at hand; it is the coinbase input, and `getBlockIndex` reads its `uint32_t`
field `blockIndex`. -/
structure BaseInput where
  blockIndex : Nat
deriving DecidableEq

/-- Modelled from the spec: `KeyInput` is declared in `CryptoNote.h`, which is not part of
the sources at hand; it is the regular (non-coinbase) input. `CachedBlock` reads none of
its fields. -/
structure KeyInput where
  amount : Nat
  outputIndexes : List Nat
  keyImage : BinaryArray
deriving DecidableEq

/-- Modelled from the spec: `TransactionInput` is the "tagged union distinguishing
coinbase vs. regular input" (a `boost::variant` in `CryptoNote.h`). -/
inductive TransactionInput where
  | base (input : BaseInput)
  | key (input : KeyInput)
deriving DecidableEq

/-- Modelled from the spec: `Transaction` is declared in `CryptoNote.h`, which is not part
of the sources at hand. `CachedBlock` reads its `inputs` and hands the whole object to
`getObjectHash`; the fields it never reads are kept as one serialized `remainder`. -/
structure Transaction where
  inputs : List TransactionInput
  remainder : BinaryArray
deriving DecidableEq

/-- Modelled from the spec: `BlockHeader` is declared in `CryptoNote.h`, which is not part
of the sources at hand: "the block header fields", of which `CachedBlock` reads
`majorVersion` (a `uint8_t`). -/
structure BlockHeader where
  majorVersion : Nat
  minorVersion : Nat
  nonce : Nat
  timestamp : Nat
  previousBlockHash : Hash

/-- Modelled from the spec: `BlockTemplate` is declared in `CryptoNote.h`, which is not
part of the sources at hand. It derives from `BlockHeader` and carries the base
transaction and the ordered transaction-hash list; the parent block, which `CachedBlock`
only hands to `makeParentBlockSerializer`, is kept as one value `parentBlock`. -/
structure BlockTemplate extends BlockHeader where
  parentBlock : BinaryArray
  baseTransaction : Transaction
  transactionHashes : List Hash

/-- The `std::runtime_error`s thrown in `CachedBlock.cpp`, one constructor per message. -/
inductive Error where
  /-- The message "Unknown block major version." -/
  | unknownBlockMajorVersion
  /-- The message that the BlockHeader can not be serialized. -/
  | cantSerializeBlockHeader
  /-- The message that the parent block header can not be serialized. -/
  | cantSerializeParentBlockHeader
  /-- The message that the parent block can not be serialized. -/
  | cantSerializeParentBlock
  /-- The message that the parent block header can not be serialized for hashing. -/
  | cantSerializeParentBlockHeaderForHashing
  /-- The message that the parent block can not be serialized for hashing. -/
  | cantSerializeParentBlockForHashing
deriving DecidableEq

/-- A call made by `CachedBlock` to one of the functions it is built upon. -/
inductive Call where
  /-- A call `getObjectHash(block.baseTransaction)`. -/
  | objectHashOfTransaction
  /-- A call `Crypto::tree_hash(...)`. -/
  | treeHash
  /-- A call `toBinaryArray(static_cast<const BlockHeader &>(block), result)`. -/
  | serializeBlockHeader
  /-- A call `getObjectHash` on a `BinaryArray`. -/
  | objectHashOfBinaryArray
  /-- A call of the hashing algorithm found in the table. -/
  | hashingAlgorithm
  /-- A call `toBinaryArray(makeParentBlockSerializer(block, hashing, headerOnly), ...)`. -/
  | serializeParentBlock (hashingSerialization headerOnly : Bool)
deriving DecidableEq

/-- The functions, declared outside `CachedBlock.cpp`, that `CachedBlock` is built upon.
None of them is part of the sources at hand, so each is a parameter of the model. -/
structure Collaborators where
  /-- The function `getObjectHash` applied to a `Transaction`. -/
  getObjectHashOfTransaction : Transaction → Hash
  /-- The function `getObjectHash` applied to a `BinaryArray`. -/
  getObjectHashOfBinaryArray : BinaryArray → Hash
  /-- The function `Crypto::tree_hash` on the hashes `data[0 .. count)`. -/
  tree_hash : List Hash → Hash
  /-- The function `toBinaryArray` on a `BlockHeader` and an empty array: `some bytes`
  when it returns true having written `bytes`, `none` when it returns false. -/
  toBinaryArrayOfBlockHeader : BlockHeader → Option BinaryArray
  /-- The function `Tools::get_varint_data`, read as a byte array. -/
  get_varint_data : Nat → BinaryArray
  /-- The table `HASHING_ALGORITHMS_BY_BLOCK_VERSION`: `at(majorVersion)` is `some` algorithm
  when the version is a key of the table and `none` when `at` throws `std::out_of_range`. -/
  HASHING_ALGORITHMS_BY_BLOCK_VERSION : Nat → Option (BinaryArray → Hash)
  /-- The function `toBinaryArray` on `makeParentBlockSerializer(block, hashingSerialization,
  headerOnly)` and an empty array: `none` when it returns false. -/
  toBinaryArrayOfParentBlock : BlockTemplate → Bool → Bool → Option BinaryArray

/-- The class `CachedBlock`: the wrapped block and its ten `mutable boost::optional` members. -/
structure CachedBlock where
  block : BlockTemplate
  blockHashingBinaryArray : Option BinaryArray
  parentBlockBinaryArray : Option BinaryArray
  parentBlockHashingBinaryArray : Option BinaryArray
  parentBlockBinaryArrayHeaderOnly : Option BinaryArray
  parentBlockHashingBinaryArrayHeaderOnly : Option BinaryArray
  blockIndex : Option Nat
  transactionTreeHash : Option Hash
  blockHash : Option Hash
  blockLongHash : Option Hash
  auxiliaryBlockHeaderHash : Option Hash

/-- The constructor `CachedBlock::CachedBlock(block)`: no member is initialised. -/
def CachedBlock.new (block : BlockTemplate) : CachedBlock :=
  { block := block
    blockHashingBinaryArray := none
    parentBlockBinaryArray := none
    parentBlockHashingBinaryArray := none
    parentBlockBinaryArrayHeaderOnly := none
    parentBlockHashingBinaryArrayHeaderOnly := none
    blockIndex := none
    transactionTreeHash := none
    blockHash := none
    blockLongHash := none
    auxiliaryBlockHeaderHash := none }

/-- What one call of a member function of `CachedBlock` does: it returns a value or throws,
leaves the object in a new state, and has made some calls on the way. -/
structure Step (α : Type) where
  outcome : Except Error α
  state : CachedBlock
  calls : List Call

/-- The member function `CachedBlock::getTransactionTreeHash`. -/
def getTransactionTreeHash (env : Collaborators) (s : CachedBlock) : Step Hash :=
  match s.transactionTreeHash with
  | some cached => ⟨.ok cached, s, []⟩
  | none =>
    let transactionHashes :=
      [env.getObjectHashOfTransaction s.block.baseTransaction] ++ s.block.transactionHashes
    let treeHash := env.tree_hash transactionHashes
    ⟨.ok treeHash, { s with transactionTreeHash := some treeHash },
      [.objectHashOfTransaction, .treeHash]⟩

/-- The member function `CachedBlock::getBlockHashingBinaryArray`. The size
`block.transactionHashes.size() + 1` cannot wrap: a vector of 32-byte hashes holds fewer
than `2^59` elements. -/
def getBlockHashingBinaryArray (env : Collaborators) (s : CachedBlock) : Step BinaryArray :=
  match s.blockHashingBinaryArray with
  | some cached => ⟨.ok cached, s, []⟩
  | none =>
    match env.toBinaryArrayOfBlockHeader s.block.toBlockHeader with
    | none =>
      -- blockHashingBinaryArray.reset(); throw
      ⟨.error .cantSerializeBlockHeader, { s with blockHashingBinaryArray := none },
        [.serializeBlockHeader]⟩
    | some header =>
      let t := getTransactionTreeHash env { s with blockHashingBinaryArray := some header }
      match t.outcome with
      | .error e => ⟨.error e, t.state, .serializeBlockHeader :: t.calls⟩
      | .ok treeHash =>
        let transactionCount := env.get_varint_data (s.block.transactionHashes.length + 1)
        let result := header ++ treeHash.bytes ++ transactionCount
        ⟨.ok result, { t.state with blockHashingBinaryArray := some result },
          .serializeBlockHeader :: t.calls⟩

/-- The member function `CachedBlock::getBlockHash`. -/
def getBlockHash (env : Collaborators) (s : CachedBlock) : Step Hash :=
  match s.blockHash with
  | some cached => ⟨.ok cached, s, []⟩
  | none =>
    let a := getBlockHashingBinaryArray env s
    match a.outcome with
    | .error e => ⟨.error e, a.state, a.calls⟩
    | .ok blockBinaryArray =>
      let hash := env.getObjectHashOfBinaryArray blockBinaryArray
      ⟨.ok hash, { a.state with blockHash := some hash },
        a.calls ++ [.objectHashOfBinaryArray]⟩

/-- The member function `CachedBlock::getBlockLongHash`. -/
def getBlockLongHash (env : Collaborators) (s : CachedBlock) : Step Hash :=
  match s.blockLongHash with
  | some cached => ⟨.ok cached, s, []⟩
  | none =>
    let a := getBlockHashingBinaryArray env s
    match a.outcome with
    | .error e => ⟨.error e, a.state, a.calls⟩
    | .ok rawHashingBlock =>
      -- blockLongHash = Hash();
      let s1 := { a.state with blockLongHash := some Hash.zero }
      match env.HASHING_ALGORITHMS_BY_BLOCK_VERSION s.block.majorVersion with
      | none => ⟨.error .unknownBlockMajorVersion, s1, a.calls⟩
      | some hashingAlgorithm =>
        let hash := hashingAlgorithm rawHashingBlock
        ⟨.ok hash, { s1 with blockLongHash := some hash }, a.calls ++ [.hashingAlgorithm]⟩

/-- The member function `CachedBlock::getAuxiliaryBlockHeaderHash`. -/
def getAuxiliaryBlockHeaderHash (env : Collaborators) (s : CachedBlock) : Step Hash :=
  match s.auxiliaryBlockHeaderHash with
  | some cached => ⟨.ok cached, s, []⟩
  | none =>
    let a := getBlockHashingBinaryArray env s
    match a.outcome with
    | .error e => ⟨.error e, a.state, a.calls⟩
    | .ok blockBinaryArray =>
      let hash := env.getObjectHashOfBinaryArray blockBinaryArray
      ⟨.ok hash, { a.state with auxiliaryBlockHeaderHash := some hash },
        a.calls ++ [.objectHashOfBinaryArray]⟩

/-- The member function `CachedBlock::getParentBlockBinaryArray`. -/
def getParentBlockBinaryArray (env : Collaborators) (headerOnly : Bool) (s : CachedBlock) :
    Step BinaryArray :=
  if headerOnly then
    match s.parentBlockBinaryArrayHeaderOnly with
    | some cached => ⟨.ok cached, s, []⟩
    | none =>
      match env.toBinaryArrayOfParentBlock s.block false true with
      | none =>
        ⟨.error .cantSerializeParentBlockHeader,
          { s with parentBlockBinaryArrayHeaderOnly := none }, [.serializeParentBlock false true]⟩
      | some bytes =>
        ⟨.ok bytes, { s with parentBlockBinaryArrayHeaderOnly := some bytes },
          [.serializeParentBlock false true]⟩
  else
    match s.parentBlockBinaryArray with
    | some cached => ⟨.ok cached, s, []⟩
    | none =>
      match env.toBinaryArrayOfParentBlock s.block false false with
      | none =>
        ⟨.error .cantSerializeParentBlock,
          { s with parentBlockBinaryArray := none }, [.serializeParentBlock false false]⟩
      | some bytes =>
        ⟨.ok bytes, { s with parentBlockBinaryArray := some bytes },
          [.serializeParentBlock false false]⟩

/-- The member function `CachedBlock::getParentBlockHashingBinaryArray`. -/
def getParentBlockHashingBinaryArray (env : Collaborators) (headerOnly : Bool)
    (s : CachedBlock) : Step BinaryArray :=
  if headerOnly then
    match s.parentBlockHashingBinaryArrayHeaderOnly with
    | some cached => ⟨.ok cached, s, []⟩
    | none =>
      match env.toBinaryArrayOfParentBlock s.block true true with
      | none =>
        ⟨.error .cantSerializeParentBlockHeaderForHashing,
          { s with parentBlockHashingBinaryArrayHeaderOnly := none },
          [.serializeParentBlock true true]⟩
      | some bytes =>
        ⟨.ok bytes, { s with parentBlockHashingBinaryArrayHeaderOnly := some bytes },
          [.serializeParentBlock true true]⟩
  else
    match s.parentBlockHashingBinaryArray with
    | some cached => ⟨.ok cached, s, []⟩
    | none =>
      match env.toBinaryArrayOfParentBlock s.block true false with
      | none =>
        ⟨.error .cantSerializeParentBlockForHashing,
          { s with parentBlockHashingBinaryArray := none }, [.serializeParentBlock true false]⟩
      | some bytes =>
        ⟨.ok bytes, { s with parentBlockHashingBinaryArray := some bytes },
          [.serializeParentBlock true false]⟩

/-- The member function `CachedBlock::getBlockIndex`. -/
def getBlockIndex (s : CachedBlock) : Step Nat :=
  match s.blockIndex with
  | some cached => ⟨.ok cached, s, []⟩
  | none =>
    if s.block.baseTransaction.inputs.length ≠ 1 then
      ⟨.ok 0, { s with blockIndex := some 0 }, []⟩
    else
      match s.block.baseTransaction.inputs.head? with
      | some (.base input) =>
        ⟨.ok input.blockIndex, { s with blockIndex := some input.blockIndex }, []⟩
      | _ => ⟨.ok 0, { s with blockIndex := some 0 }, []⟩

/-- The member functions of `CachedBlock` that compute and cache a derived field. -/
inductive Getter where
  | transactionTreeHash
  | blockHash
  | blockLongHash
  | auxiliaryBlockHeaderHash
  | blockHashingBinaryArray
  | parentBlockBinaryArray (headerOnly : Bool)
  | parentBlockHashingBinaryArray (headerOnly : Bool)
  | blockIndex
deriving DecidableEq

/-- The state in which a call of the getter `g` leaves the object, whether it returned
or threw. -/
def Getter.run (env : Collaborators) (g : Getter) (s : CachedBlock) : CachedBlock :=
  match g with
  | .transactionTreeHash => (getTransactionTreeHash env s).state
  | .blockHash => (getBlockHash env s).state
  | .blockLongHash => (getBlockLongHash env s).state
  | .auxiliaryBlockHeaderHash => (getAuxiliaryBlockHeaderHash env s).state
  | .blockHashingBinaryArray => (getBlockHashingBinaryArray env s).state
  | .parentBlockBinaryArray headerOnly => (getParentBlockBinaryArray env headerOnly s).state
  | .parentBlockHashingBinaryArray headerOnly =>
    (getParentBlockHashingBinaryArray env headerOnly s).state
  | .blockIndex => (getBlockIndex s).state

/-- The state of the object after the getters `gs` have been called on it one after the
other, each call either returning or throwing to a caller that catches. -/
def runAll (env : Collaborators) (gs : List Getter) (s : CachedBlock) : CachedBlock :=
  gs.foldl (fun state g => g.run env state) s

/-- The calls that a call of the getter `g` makes in state `s`. -/
def Getter.calls (env : Collaborators) (g : Getter) (s : CachedBlock) : List Call :=
  match g with
  | .transactionTreeHash => (getTransactionTreeHash env s).calls
  | .blockHash => (getBlockHash env s).calls
  | .blockLongHash => (getBlockLongHash env s).calls
  | .auxiliaryBlockHeaderHash => (getAuxiliaryBlockHeaderHash env s).calls
  | .blockHashingBinaryArray => (getBlockHashingBinaryArray env s).calls
  | .parentBlockBinaryArray headerOnly => (getParentBlockBinaryArray env headerOnly s).calls
  | .parentBlockHashingBinaryArray headerOnly =>
    (getParentBlockHashingBinaryArray env headerOnly s).calls
  | .blockIndex => (getBlockIndex s).calls

/-- The call counter: all calls made while the getters `gs` are called one after the other
on an object in state `s`, in the order they are made. -/
def callsOf (env : Collaborators) : List Getter → CachedBlock → List Call
  | [], _ => []
  | g :: gs, s => g.calls env s ++ callsOf env gs (g.run env s)

/-- The tree hash of a block, computed without any cache: `tree_hash` of the object hash of
the base transaction followed by the transaction hashes. -/
def treeHashOf (env : Collaborators) (block : BlockTemplate) : Hash :=
  env.tree_hash (env.getObjectHashOfTransaction block.baseTransaction :: block.transactionHashes)

/-- The hashing binary array of a block, computed without any cache; `none` when the
header does not serialize. -/
def hashingArrayOf (env : Collaborators) (block : BlockTemplate) : Option BinaryArray :=
  match env.toBinaryArrayOfBlockHeader block.toBlockHeader with
  | none => none
  | some header =>
    some (header ++ (treeHashOf env block).bytes
      ++ env.get_varint_data (block.transactionHashes.length + 1))

/-- What the member `blockLongHash` holds once it is initialised, given the hashing binary
array: the hash of the algorithm of the table, or the value-initialised hash left behind
when the table has no entry. -/
def longHashSlotOf (env : Collaborators) (block : BlockTemplate) (raw : BinaryArray) : Hash :=
  match env.HASHING_ALGORITHMS_BY_BLOCK_VERSION block.majorVersion with
  | none => Hash.zero
  | some hashingAlgorithm => hashingAlgorithm raw

/-- The block index of a block, computed without any cache. -/
def blockIndexOf (block : BlockTemplate) : Nat :=
  match block.baseTransaction.inputs with
  | [.base input] => input.blockIndex
  | _ => 0

/-- The cache invariant: every initialised member holds the value computed from the block. -/
structure Coherent (env : Collaborators) (s : CachedBlock) : Prop where
  tree : ∀ h, s.transactionTreeHash = some h → h = treeHashOf env s.block
  hashing : ∀ a, s.blockHashingBinaryArray = some a → hashingArrayOf env s.block = some a
  hash : ∀ h, s.blockHash = some h →
    ∃ a, hashingArrayOf env s.block = some a ∧ h = env.getObjectHashOfBinaryArray a
  aux : ∀ h, s.auxiliaryBlockHeaderHash = some h →
    ∃ a, hashingArrayOf env s.block = some a ∧ h = env.getObjectHashOfBinaryArray a
  long : ∀ h, s.blockLongHash = some h →
    ∃ a, hashingArrayOf env s.block = some a ∧ h = longHashSlotOf env s.block a
  index : ∀ i, s.blockIndex = some i → i = blockIndexOf s.block
  parent : ∀ a, s.parentBlockBinaryArray = some a →
    env.toBinaryArrayOfParentBlock s.block false false = some a
  parentHeaderOnly : ∀ a, s.parentBlockBinaryArrayHeaderOnly = some a →
    env.toBinaryArrayOfParentBlock s.block false true = some a
  parentHashing : ∀ a, s.parentBlockHashingBinaryArray = some a →
    env.toBinaryArrayOfParentBlock s.block true false = some a
  parentHashingHeaderOnly : ∀ a, s.parentBlockHashingBinaryArrayHeaderOnly = some a →
    env.toBinaryArrayOfParentBlock s.block true true = some a

/-! ### Concrete inputs

A small concrete instance of the collaborators and of a block, on which the model can be
evaluated. -/

/-- Collaborators with a one-entry table: only major version 1 has a hashing algorithm.
Every header serializes, to its two version bytes. -/
def sampleCollaborators : Collaborators where
  getObjectHashOfTransaction := fun _ => Hash.fill 1
  getObjectHashOfBinaryArray := fun _ => Hash.fill 2
  tree_hash := fun _ => Hash.fill 3
  toBinaryArrayOfBlockHeader := fun h =>
    some [Fin.ofNat h.majorVersion, Fin.ofNat h.minorVersion]
  get_varint_data := fun n => [Fin.ofNat n]
  HASHING_ALGORITHMS_BY_BLOCK_VERSION := fun v => if v = 1 then some (fun _ => Hash.fill 4) else none
  toBinaryArrayOfParentBlock := fun _ _ _ => some []

/-- The same collaborators, except that no header serializes. -/
def unserializableHeader : Collaborators :=
  { sampleCollaborators with toBinaryArrayOfBlockHeader := fun _ => none }

/-- A block of the given major version whose base transaction has the given inputs and
which lists no other transaction. -/
def sampleBlock (majorVersion : Nat) (inputs : List TransactionInput) : BlockTemplate where
  majorVersion := majorVersion
  minorVersion := 0
  nonce := 0
  timestamp := 0
  previousBlockHash := Hash.zero
  parentBlock := []
  baseTransaction := { inputs := inputs, remainder := [] }
  transactionHashes := []

/-! ### The binary output stream serializer (`BinaryOutputStreamSerializer.cpp`) -/

/-- A `Common::StringView`: the `name` argument of the serializer members, which
`BinaryOutputStreamSerializer` never reads. -/
abbrev StringView := List Char

/-- A buffer given by a pointer: the byte found at each offset from it. -/
abbrev Buffer := Nat → Fin 256

/-- The buffer `value.data()` of a `std::string` holding the bytes `value`. -/
def data (value : List (Fin 256)) : Buffer := fun i => value.getD i 0

/-- Modelled from the spec: `Common::IOutputStream` and `write(stream, buf, size)` are
declared in `common/IOutputStream.h` and `common/StreamTools.h`, which are not part of the
sources at hand. The specification has `binary(buffer, size)` write "fixed-length blobs":
the stream is the sequence of bytes written to it so far, and `write` appends the `size`
bytes `buf[0], ..., buf[size - 1]`. -/
def write (stream : BinaryArray) (buf : Buffer) (size : Nat) : BinaryArray :=
  stream ++ (List.range size).map buf

/-- Modelled from the spec: `writeVarint(stream, value)` is declared in
`common/StreamTools.h`, which is not part of the sources at hand. It appends the
variable-length encoding of `value`; the encoding itself is the parameter `varint`. -/
def writeVarint (varint : Nat → BinaryArray) (stream : BinaryArray) (value : Nat) :
    BinaryArray :=
  stream ++ varint value

/-- The class `BinaryOutputStreamSerializer`: its one member is the stream it writes to. -/
structure BinaryOutputStreamSerializer where
  stream : BinaryArray

/-- What stops `operator()(double &, StringView)`. -/
inductive SerializerError where
  /-- The `assert(false)` of a build whose assertions are enabled. -/
  | assertionFailed
  /-- The `std::runtime_error` saying that double serialization is not supported. -/
  | doubleSerializationNotSupported
deriving DecidableEq

/-- The member function `BinaryOutputStreamSerializer::checkedWrite(buf, size)`. -/
def BinaryOutputStreamSerializer.checkedWrite (self : BinaryOutputStreamSerializer)
    (buf : Buffer) (size : Nat) : BinaryOutputStreamSerializer :=
  ⟨write self.stream buf size⟩

/-- The member function `BinaryOutputStreamSerializer::operator()(std::string &, StringView)`:
the returned flag and the serializer afterwards. -/
def BinaryOutputStreamSerializer.operatorString (varint : Nat → BinaryArray)
    (self : BinaryOutputStreamSerializer) (value : List (Fin 256)) (_name : StringView) :
    Bool × BinaryOutputStreamSerializer :=
  let afterSize : BinaryOutputStreamSerializer := ⟨writeVarint varint self.stream value.length⟩
  (true, afterSize.checkedWrite (data value) value.length)

/-- The member function `BinaryOutputStreamSerializer::binary(void *, uint64_t, StringView)`:
the returned flag and the serializer afterwards. -/
def BinaryOutputStreamSerializer.binary (self : BinaryOutputStreamSerializer)
    (value : Buffer) (size : Nat) (_name : StringView) : Bool × BinaryOutputStreamSerializer :=
  (true, self.checkedWrite value size)

/-- The member function `BinaryOutputStreamSerializer::binary(std::string &, StringView)`:
written as a string, with size prefix. -/
def BinaryOutputStreamSerializer.binaryString (varint : Nat → BinaryArray)
    (self : BinaryOutputStreamSerializer) (value : List (Fin 256)) (name : StringView) :
    Bool × BinaryOutputStreamSerializer :=
  self.operatorString varint value name

/-- The member function `BinaryOutputStreamSerializer::operator()(double &, StringView)`.
With assertions enabled (`ndebug = false`) the `assert(false)` stops the program; with
`NDEBUG` defined the `std::runtime_error` is thrown. The statement `return false` behind
the `throw` is never reached. -/
def BinaryOutputStreamSerializer.operatorDouble (ndebug : Bool)
    (self : BinaryOutputStreamSerializer) (_value : Float) (_name : StringView) :
    Except SerializerError Bool × BinaryOutputStreamSerializer :=
  if ndebug then
    (.error .doubleSerializationNotSupported, self)
  else
    (.error .assertionFailed, self)

end CryptoNote

/-! ### The address book entry (`zedwallet++/AddressBook.h`) -/

/-- The struct `AddressBookEntry`. -/
structure AddressBookEntry where
  friendlyName : String
  address : String
  paymentID : String
deriving DecidableEq

/-- The member `AddressBookEntry::operator==`: `rhs.friendlyName == friendlyName`. -/
def AddressBookEntry.operatorEq (self rhs : AddressBookEntry) : Bool :=
  rhs.friendlyName == self.friendlyName

/-- An address book entry named alice. -/
def sampleEntryAlice : AddressBookEntry :=
  { friendlyName := "alice", address := "TRTLone", paymentID := "" }

/-- Another address book entry named alice, with another address and payment ID. -/
def sampleEntryAliceAgain : AddressBookEntry :=
  { friendlyName := "alice", address := "TRTLtwo", paymentID := "ff" }

/-! ### The import job of RocksDB (`external/rocksdb/db/import_column_family_job.cc`) -/

namespace rocksdb

/-- The struct `LiveFileMetaData`, of which `Prepare` reads the name, the path and the
level (an `int`). -/
structure LiveFileMetaData where
  name : String
  db_path : String
  level : Int

/-- The struct `IngestedFileInfo` over a type of internal keys, with the members that
`Prepare` reads before it copies files. -/
structure IngestedFileInfo (Key : Type) where
  smallest_internal_key : Key
  largest_internal_key : Key
  num_entries : Nat

/-- An element of `sorted_files`, the pointer `&files_to_import_[i]`: the index `i` together
with the file it points to. -/
abbrev FilePointer (Key : Type) := Nat × IngestedFileInfo Key

/-- What `GetIngestedFileInfo` sees of an external file once its table reader is open: the
number of entries of the table properties, and the entries that the iterator of the table
yields from `SeekToFirst` to `SeekToLast`, each with the key that `ParseInternalKey` reads
from it (`none` when the key does not parse). -/
structure ExternalTable (Key : Type) where
  num_entries : Nat
  entries : List (Option Key)

/-- The class `ImportColumnFamilyJob`, as far as `Prepare` reads it: the metadata of the
files to import and the functions defined elsewhere. -/
structure ImportColumnFamilyJob (Key : Type) where
  metadata_ : List LiveFileMetaData
  /-- Lines 186 to 209 of `GetIngestedFileInfo`: `GetFileSize`, `NewRandomAccessFile` and
  `NewTableReader` on the path of an external file, through the environment and the table
  factory: the table that is opened, `none` when one of the statuses is not ok. -/
  NewTableReader : String → Option (ExternalTable Key)
  /-- The function `sstableKeyCompare(ucmp, a, b)` with the comparator of the column family. -/
  sstableKeyCompare : Key → Key → Int
  /-- The function `std::sort` on `sorted_files` with a comparator. -/
  sort : (FilePointer Key → FilePointer Key → Bool) → List (FilePointer Key)
    → List (FilePointer Key)

/-- The member function `ImportColumnFamilyJob::GetIngestedFileInfo` (lines 181 to 253):
`some` file information when the returned status is ok, `none` otherwise. The smallest key
is the key at `SeekToFirst`, the largest key the key at `SeekToLast` of the one table; a
key that does not parse gives the status Corruption, and so does the iterator of a table
without entries, which has no key to parse. -/
def ImportColumnFamilyJob.GetIngestedFileInfo {Key : Type} (job : ImportColumnFamilyJob Key)
    (external_file : String) : Option (IngestedFileInfo Key) :=
  match job.NewTableReader external_file with
  | none => none
  | some table =>
    -- Get first (smallest) key from file
    match table.entries.head? with
    | some (some smallest) =>
      -- Get last (largest) key from file
      match table.entries.getLast? with
      | some (some largest) =>
        some { smallest_internal_key := smallest, largest_internal_key := largest,
               num_entries := table.num_entries }
      | _ => none
    | _ => none

/-- How the scan of one level ends. -/
inductive ScanResult where
  /-- The loop ran to its end. -/
  | noOverlap
  /-- The loop returned at line 68. -/
  | overlap
  /-- The loop read `sorted_files` at an index that is not below its size. -/
  | outOfBounds
deriving DecidableEq

/-- How lines 21 to 72 of `Prepare` end. -/
inductive PrepareResult where
  /-- A call of `GetIngestedFileInfo` returned a status that is not ok, which is returned. -/
  | readFailed
  /-- The status InvalidArgument "The list of files is empty" is returned. -/
  | emptyList
  /-- The status InvalidArgument "Files have overlapping ranges" is returned. -/
  | overlappingRanges
  /-- The overlap scan read `sorted_files` at an index that is not below its size. -/
  | outOfBounds
  /-- Control reaches line 74: the checks of the single files and the copying, which return
  other statuses. -/
  | continues
deriving DecidableEq

/-- Lines 26 to 34: the files are read in order into `files_to_import_`; the first status
that is not ok ends `Prepare`. -/
def readFiles {Key : Type} (getInfo : String → Option (IngestedFileInfo Key)) :
    List LiveFileMetaData → Option (List (IngestedFileInfo Key))
  | [] => some []
  | file_metadata :: rest =>
    match getInfo (file_metadata.db_path ++ "/" ++ file_metadata.name) with
    | none => none
    | some file_to_import =>
      match readFiles getInfo rest with
      | none => none
      | some files => some (file_to_import :: files)

/-- Lines 44 to 49: the highest level among the metadata, starting from -1. -/
def maxLevel (metadata : List LiveFileMetaData) : Int :=
  metadata.foldl (fun max_level file_metadata =>
    if file_metadata.level > max_level then file_metadata.level else max_level) (-1)

/-- Lines 51 to 56: `sorted_files` before it is sorted, the pointers to the files whose
metadata has the given level, in index order. The two vectors have the same size, so the
index `i` runs over their pairs. -/
def levelFiles {Key : Type} (metadata : List LiveFileMetaData)
    (files : List (IngestedFileInfo Key)) (level : Int) : List (FilePointer Key) :=
  ((metadata.zip files).enum.filter (fun e => decide (e.2.1.level = level))).map
    (fun e => (e.1, e.2.2))

/-- Lines 65 to 70: the loop `for (size_t i = 0; i < sorted_files.size() - 1; i++)`, entered
at index `i` with `remaining` iterations left before `i` reaches the bound. Each iteration
reads `sorted_files[i]` and `sorted_files[i + 1]`. -/
def overlapScan {Key : Type} (compare : Key → Key → Int) (sorted_files : List (FilePointer Key)) :
    Nat → Nat → ScanResult
  | 0, _ => .noOverlap
  | remaining + 1, i =>
    match sorted_files[i]?, sorted_files[i + 1]? with
    | some info1, some info2 =>
      if compare info1.2.largest_internal_key info2.2.smallest_internal_key ≥ 0 then
        .overlap
      else
        overlapScan compare sorted_files remaining (i + 1)
    | _, _ => .outOfBounds

/-- The comparator given to `std::sort` at lines 59 to 63: the smallest key of `info1` is
below the smallest key of `info2`. -/
def smallestKeyLess {Key : Type} (job : ImportColumnFamilyJob Key)
    (info1 info2 : FilePointer Key) : Bool :=
  decide (job.sstableKeyCompare info1.2.smallest_internal_key
    info2.2.smallest_internal_key < 0)

/-- The bound `sorted_files.size() - 1` of line 65. It is computed in `size_t`, that is
modulo `2 ^ 64`, so it wraps around to `2 ^ 64 - 1` when the size is 0. -/
def scanBound (size : Nat) : Nat :=
  (((size : Int) - 1) % 2 ^ 64).toNat

/-- Lines 51 to 70 for one level. -/
def checkLevel {Key : Type} (job : ImportColumnFamilyJob Key)
    (files : List (IngestedFileInfo Key)) (level : Int) : ScanResult :=
  let sorted_files := job.sort (smallestKeyLess job) (levelFiles job.metadata_ files level)
  overlapScan job.sstableKeyCompare sorted_files (scanBound sorted_files.length) 0

/-- Lines 50 to 71: the loop over the levels, entered at `level` with `remaining` levels
left up to `max_level`. -/
def checkLevels {Key : Type} (job : ImportColumnFamilyJob Key)
    (files : List (IngestedFileInfo Key)) : Nat → Int → PrepareResult
  | 0, _ => .continues
  | remaining + 1, level =>
    match checkLevel job files level with
    | .overlap => .overlappingRanges
    | .outOfBounds => .outOfBounds
    | .noOverlap => checkLevels job files remaining (level + 1)

/-- Lines 21 to 72 of the member function `ImportColumnFamilyJob::Prepare`. The levels
are far below the largest `int`, so `++level` does not overflow. -/
def ImportColumnFamilyJob.Prepare {Key : Type} (job : ImportColumnFamilyJob Key) :
    PrepareResult :=
  match readFiles job.GetIngestedFileInfo job.metadata_ with
  | none => .readFailed
  | some files_to_import_ =>
    let num_files := files_to_import_.length
    if num_files = 0 then
      .emptyList
    else if num_files > 1 then
      -- Check for overlaps in Level 1 and above.
      checkLevels job files_to_import_ (maxLevel job.metadata_).toNat 1
    else
      .continues

/-- A sort for the samples: insertion sort, one of the results `std::sort` may give. -/
def sampleSort {Key : Type} (less : FilePointer Key → FilePointer Key → Bool)
    (l : List (FilePointer Key)) : List (FilePointer Key) :=
  List.insertionSort (fun a b => less b a = false) l

/-- A sample job over integer keys, compared by their difference. The file named `name`
of level `level` is a table of two entries, with the keys `first` and `first + width`. -/
def sampleJob (files : List (String × Int × Int × Nat)) : ImportColumnFamilyJob Int where
  metadata_ := files.map (fun f => { name := f.1, db_path := "db", level := f.2.1 })
  NewTableReader := fun path =>
    (files.find? (fun f => "db/" ++ f.1 = path)).map
      (fun f => { num_entries := 2, entries := [some f.2.2.1, some (f.2.2.1 + f.2.2.2)] })
  sstableKeyCompare := fun a b => a - b
  sort := sampleSort

/-- Two files of level 1 with the key ranges 1 to 5 and 3 to 4. -/
def overlappingSample : ImportColumnFamilyJob Int :=
  sampleJob [("a", 1, 1, 4), ("b", 1, 3, 1)]

/-- Two files with disjoint key ranges, one of level 0 and one of level 2: level 1 holds no
file. -/
def skippedLevelSample : ImportColumnFamilyJob Int :=
  sampleJob [("a", 0, 1, 1), ("b", 2, 3, 1)]

/-- The comparison is an order on the keys: `compare a b <= 0` says the same as
`compare b a >= 0`, and `>= 0` is transitive. -/
structure KeyOrder {Key : Type} (compare : Key → Key → Int) : Prop where
  swap : ∀ a b, compare a b ≤ 0 ↔ 0 ≤ compare b a
  trans : ∀ a b c, 0 ≤ compare a b → 0 ≤ compare b c → 0 ≤ compare a c

/-- What `std::sort` guarantees with the comparator of the job: the result is a
rearrangement of the input in which no element is below an earlier one. -/
def SortsBySmallestKey {Key : Type} (job : ImportColumnFamilyJob Key) : Prop :=
  ∀ l, List.Perm (job.sort (smallestKeyLess job) l) l
    ∧ List.Pairwise (fun a b => smallestKeyLess job b a = false)
        (job.sort (smallestKeyLess job) l)

/-- Every table is in key order: the iterator of a table yields its keys in the order of
the comparison, no key before one that is below it. -/
def TablesInKeyOrder {Key : Type} (job : ImportColumnFamilyJob Key) : Prop :=
  ∀ path table, job.NewTableReader path = some table →
    table.entries.Pairwise (fun x y =>
      ∀ a b, x = some a → y = some b → job.sstableKeyCompare a b ≤ 0)

end rocksdb


namespace CryptoNote

open Crypto

theorem limb_lt (hash : Hash) (i : Fin 4) : limb hash i < 2 ^ 64 := by
  unfold limb
  have h0 := (hash.data ⟨8 * i.val, by omega⟩).isLt
  have h1 := (hash.data ⟨8 * i.val + 1, by omega⟩).isLt
  have h2 := (hash.data ⟨8 * i.val + 2, by omega⟩).isLt
  have h3 := (hash.data ⟨8 * i.val + 3, by omega⟩).isLt
  have h4 := (hash.data ⟨8 * i.val + 4, by omega⟩).isLt
  have h5 := (hash.data ⟨8 * i.val + 5, by omega⟩).isLt
  have h6 := (hash.data ⟨8 * i.val + 6, by omega⟩).isLt
  have h7 := (hash.data ⟨8 * i.val + 7, by omega⟩).isLt
  omega

theorem finRange_thirtyTwo :
    List.finRange 32 = [0, 1, 2, 3, 4, 5, 6, 7, 8, 9, 10, 11, 12, 13, 14, 15, 16, 17, 18, 19,
      20, 21, 22, 23, 24, 25, 26, 27, 28, 29, 30, 31] := by
  decide

theorem hashValue_eq_limbs (hash : Hash) :
    hashValue hash
      = limb hash 0 + 2 ^ 64 * limb hash 1 + 2 ^ 128 * limb hash 2 + 2 ^ 192 * limb hash 3 := by
  have e0 : limb hash 0 = (hash.data 0).val + 256 * (hash.data 1).val + 256 ^ 2 * (hash.data 2).val + 256 ^ 3 * (hash.data 3).val + 256 ^ 4 * (hash.data 4).val + 256 ^ 5 * (hash.data 5).val + 256 ^ 6 * (hash.data 6).val + 256 ^ 7 * (hash.data 7).val := rfl
  have e1 : limb hash 1 = (hash.data 8).val + 256 * (hash.data 9).val + 256 ^ 2 * (hash.data 10).val + 256 ^ 3 * (hash.data 11).val + 256 ^ 4 * (hash.data 12).val + 256 ^ 5 * (hash.data 13).val + 256 ^ 6 * (hash.data 14).val + 256 ^ 7 * (hash.data 15).val := rfl
  have e2 : limb hash 2 = (hash.data 16).val + 256 * (hash.data 17).val + 256 ^ 2 * (hash.data 18).val + 256 ^ 3 * (hash.data 19).val + 256 ^ 4 * (hash.data 20).val + 256 ^ 5 * (hash.data 21).val + 256 ^ 6 * (hash.data 22).val + 256 ^ 7 * (hash.data 23).val := rfl
  have e3 : limb hash 3 = (hash.data 24).val + 256 * (hash.data 25).val + 256 ^ 2 * (hash.data 26).val + 256 ^ 3 * (hash.data 27).val + 256 ^ 4 * (hash.data 28).val + 256 ^ 5 * (hash.data 29).val + 256 ^ 6 * (hash.data 30).val + 256 ^ 7 * (hash.data 31).val := rfl
  rw [e0, e1, e2, e3]
  unfold hashValue
  rw [Fin.sum_univ_def, finRange_thirtyTwo]
  simp only [List.map_cons, List.map_nil, List.sum_cons, List.sum_nil]
  simp only [Fin.coe_ofNat_eq_mod, Fin.val_zero, Fin.val_one, Fin.val_two]
  norm_num
  ring

theorem cadd_iff (a b : Nat) (ha : a < 2 ^ 64) (hb : b < 2 ^ 64) :
    cadd a b = true ↔ 2 ^ 64 ≤ a + b := by
  unfold cadd U64
  simp only [decide_eq_true_eq]
  omega

theorem cadc_iff (a b : Nat) (c : Bool) (ha : a < 2 ^ 64) (hb : b < 2 ^ 64) :
    cadc a b c = true ↔ 2 ^ 64 ≤ a + b + (if c then 1 else 0) := by
  unfold cadc U64
  cases c <;> simp <;> omega

theorem mul_fst (a b : Nat) : (mul a b).1 = (a * b) % 2 ^ 128 % 2 ^ 64 := rfl

theorem mul_snd (a b : Nat) : (mul a b).2 = (a * b) % 2 ^ 128 / 2 ^ 64 % 2 ^ 64 := rfl

theorem mul_lt_U128 (a d : Nat) (ha : a < 2 ^ 64) (hd : d < 2 ^ 64) : a * d < 2 ^ 128 :=
  calc a * d < 2 ^ 64 * 2 ^ 64 := Nat.mul_lt_mul'' ha hd
    _ = 2 ^ 128 := by norm_num

/-- The carry chain of `check_hash` on four limbs: it accepts exactly when the product of
the 256-bit value with the difficulty stays below `2 ^ 256`. -/
theorem check_hash_limbs (hash : Hash) (d : Nat) (hd : d < 2 ^ 64) :
    check_hash hash d = true
      ↔ (limb hash 0 + 2 ^ 64 * limb hash 1 + 2 ^ 128 * limb hash 2
          + 2 ^ 192 * limb hash 3) * d < 2 ^ 256 := by
  have e : (limb hash 0 + 2 ^ 64 * limb hash 1 + 2 ^ 128 * limb hash 2
        + 2 ^ 192 * limb hash 3) * d
      = limb hash 0 * d + 2 ^ 64 * (limb hash 1 * d) + 2 ^ 128 * (limb hash 2 * d)
        + 2 ^ 192 * (limb hash 3 * d) := by ring
  rw [e]
  have b0 := mul_lt_U128 _ d (limb_lt hash 0) hd
  have b1 := mul_lt_U128 _ d (limb_lt hash 1) hd
  have b2 := mul_lt_U128 _ d (limb_lt hash 2) hd
  have b3 := mul_lt_U128 _ d (limb_lt hash 3) hd
  unfold check_hash
  simp only [mul_fst, mul_snd]
  generalize limb hash 0 * d = p0 at *
  generalize limb hash 1 * d = p1 at *
  generalize limb hash 2 * d = p2 at *
  generalize limb hash 3 * d = p3 at *
  clear e hd
  split
  · rename_i hh
    simp only [Bool.false_eq_true, false_iff]
    omega
  · rename_i hh
    simp only [Bool.not_eq_true', ne_eq, Decidable.not_not] at hh ⊢
    rw [← Bool.not_eq_true, cadc_iff _ _ _ (by omega) (by omega)]
    have k1 := cadd_iff (p0 % 2 ^ 128 / 2 ^ 64 % 2 ^ 64) (p1 % 2 ^ 128 % 2 ^ 64)
      (by omega) (by omega)
    have k2 := cadc_iff (p1 % 2 ^ 128 / 2 ^ 64 % 2 ^ 64) (p2 % 2 ^ 128 % 2 ^ 64)
      (cadd (p0 % 2 ^ 128 / 2 ^ 64 % 2 ^ 64) (p1 % 2 ^ 128 % 2 ^ 64)) (by omega) (by omega)
    rcases Bool.eq_false_or_eq_true
      (cadd (p0 % 2 ^ 128 / 2 ^ 64 % 2 ^ 64) (p1 % 2 ^ 128 % 2 ^ 64)) with c1 | c1 <;>
    rcases Bool.eq_false_or_eq_true
      (cadc (p1 % 2 ^ 128 / 2 ^ 64 % 2 ^ 64) (p2 % 2 ^ 128 % 2 ^ 64)
        (cadd (p0 % 2 ^ 128 / 2 ^ 64 % 2 ^ 64) (p1 % 2 ^ 128 % 2 ^ 64))) with c2 | c2 <;>
    · rw [c2] at k2 ⊢
      rw [c1] at k1 k2
      simp only [if_true, if_false, Bool.false_eq_true, true_iff, false_iff] at k1 k2 ⊢
      omega

/-- Claim C1: for every 32-byte hash and every 64-bit difficulty `D`, `check_hash` returns
true exactly when `H * D < 2 ^ 256`, where `H` is the hash read as an unsigned 256-bit
little-endian integer (byte `i` has weight `256 ^ i`) and the product is taken over the
unbounded natural numbers. -/
theorem check_hash_iff_product_fits (hash : Hash) (difficulty : Nat)
    (hD : difficulty < 2 ^ 64) :
    check_hash hash difficulty = true ↔ hashValue hash * difficulty < 2 ^ 256 := by
  rw [hashValue_eq_limbs]
  exact check_hash_limbs hash difficulty hD

/-- The theorem of claim C1 at the hash whose bytes are all 255 and difficulty 2. -/
theorem check_hash_iff_product_fits_witness :
    2 < 2 ^ 64
      ∧ (check_hash (Hash.fill 255) 2 = true ↔ hashValue (Hash.fill 255) * 2 < 2 ^ 256) :=
  ⟨by norm_num, check_hash_iff_product_fits (Hash.fill 255) 2 (by norm_num)⟩

/-- Claim C2: for every 32-byte hash, `check_hash(hash, 0)` returns true: difficulty zero
accepts every hash. -/
theorem check_hash_difficulty_zero (hash : Hash) : check_hash hash 0 = true := by
  unfold check_hash
  simp [mul, cadd, cadc, U64, U128]

/-! ### The cache invariant -/

theorem coherent_new (env : Collaborators) (block : BlockTemplate) :
    Coherent env (CachedBlock.new block) := by
  constructor <;> intro x hx <;> simp [CachedBlock.new] at hx

theorem getTransactionTreeHash_outcome_eq (env : Collaborators) (s : CachedBlock) :
    (getTransactionTreeHash env s).outcome
      = .ok (s.transactionTreeHash.getD (treeHashOf env s.block)) := by
  unfold getTransactionTreeHash
  split
  · rename_i cached hs
    simp only [hs, Option.getD_some]
  · rename_i hs
    simp only [hs, Option.getD_none]
    rfl

theorem getTransactionTreeHash_state_eq (env : Collaborators) (s : CachedBlock) :
    (getTransactionTreeHash env s).state
      = { s with
          transactionTreeHash := some (s.transactionTreeHash.getD (treeHashOf env s.block)) } := by
  unfold getTransactionTreeHash
  split
  · rename_i cached hs
    cases s
    simp only at hs
    simp only [hs, Option.getD_some]
  · rename_i hs
    simp only [hs, Option.getD_none]
    rfl

theorem getTransactionTreeHash_calls_eq (env : Collaborators) (s : CachedBlock) :
    (getTransactionTreeHash env s).calls
      = if s.transactionTreeHash.isSome then [] else [.objectHashOfTransaction, .treeHash] := by
  unfold getTransactionTreeHash
  split
  · rename_i cached hs
    simp only [hs, Option.isSome_some, if_true]
  · rename_i hs
    simp only [hs, Option.isSome_none, Bool.false_eq_true, if_false]

theorem getTransactionTreeHash_coherent (env : Collaborators) (s : CachedBlock)
    (hc : Coherent env s) : Coherent env (getTransactionTreeHash env s).state := by
  rw [getTransactionTreeHash_state_eq]
  refine { hc with tree := ?_ }
  intro h hh
  simp only [Option.some.injEq] at hh
  rw [← hh]
  cases ht : s.transactionTreeHash with
  | none => rfl
  | some c => simpa using hc.tree c ht

/-- The state in which `getBlockHashingBinaryArray` leaves the object when the header
serializes to `header` and the array was not cached. -/
theorem getBlockHashingBinaryArray_fresh (env : Collaborators) (s : CachedBlock)
    (header : BinaryArray) (hs : s.blockHashingBinaryArray = none)
    (hh : env.toBinaryArrayOfBlockHeader s.block.toBlockHeader = some header) :
    getBlockHashingBinaryArray env s
      = ⟨.ok (header ++ (s.transactionTreeHash.getD (treeHashOf env s.block)).bytes
            ++ env.get_varint_data (s.block.transactionHashes.length + 1)),
          { s with
            transactionTreeHash := some (s.transactionTreeHash.getD (treeHashOf env s.block))
            blockHashingBinaryArray :=
              some (header ++ (s.transactionTreeHash.getD (treeHashOf env s.block)).bytes
                ++ env.get_varint_data (s.block.transactionHashes.length + 1)) },
          .serializeBlockHeader ::
            (if s.transactionTreeHash.isSome then [] else [.objectHashOfTransaction, .treeHash])⟩ := by
  unfold getBlockHashingBinaryArray
  simp only [hs, hh, getTransactionTreeHash_outcome_eq, getTransactionTreeHash_state_eq,
    getTransactionTreeHash_calls_eq]

theorem getBlockHashingBinaryArray_fails (env : Collaborators) (s : CachedBlock)
    (hs : s.blockHashingBinaryArray = none)
    (hh : env.toBinaryArrayOfBlockHeader s.block.toBlockHeader = none) :
    getBlockHashingBinaryArray env s
      = ⟨.error .cantSerializeBlockHeader, s, [.serializeBlockHeader]⟩ := by
  unfold getBlockHashingBinaryArray
  simp only [hs, hh]
  cases s
  simp only at hs
  simp only [hs]

theorem getBlockHashingBinaryArray_cached (env : Collaborators) (s : CachedBlock)
    (cached : BinaryArray) (hs : s.blockHashingBinaryArray = some cached) :
    getBlockHashingBinaryArray env s = ⟨.ok cached, s, []⟩ := by
  unfold getBlockHashingBinaryArray
  simp only [hs]

theorem Coherent.tree_getD {env : Collaborators} {s : CachedBlock} (hc : Coherent env s) :
    s.transactionTreeHash.getD (treeHashOf env s.block) = treeHashOf env s.block := by
  cases ht : s.transactionTreeHash with
  | none => rfl
  | some c => simpa using hc.tree c ht

theorem getTransactionTreeHash_block (env : Collaborators) (s : CachedBlock) :
    (getTransactionTreeHash env s).state.block = s.block := by
  rw [getTransactionTreeHash_state_eq]

theorem getBlockHashingBinaryArray_block (env : Collaborators) (s : CachedBlock) :
    (getBlockHashingBinaryArray env s).state.block = s.block := by
  cases hs : s.blockHashingBinaryArray with
  | some c => rw [getBlockHashingBinaryArray_cached env s c hs]
  | none =>
    cases hh : env.toBinaryArrayOfBlockHeader s.block.toBlockHeader with
    | none => rw [getBlockHashingBinaryArray_fails env s hs hh]
    | some header => rw [getBlockHashingBinaryArray_fresh env s header hs hh]

theorem getBlockHashingBinaryArray_outcome (env : Collaborators) (s : CachedBlock)
    (hc : Coherent env s) :
    (getBlockHashingBinaryArray env s).outcome
      = match hashingArrayOf env s.block with
        | some a => .ok a
        | none => .error .cantSerializeBlockHeader := by
  cases hs : s.blockHashingBinaryArray with
  | some c =>
    rw [getBlockHashingBinaryArray_cached env s c hs, hc.hashing c hs]
  | none =>
    cases hh : env.toBinaryArrayOfBlockHeader s.block.toBlockHeader with
    | none =>
      rw [getBlockHashingBinaryArray_fails env s hs hh]
      simp only [hashingArrayOf, hh]
    | some header =>
      rw [getBlockHashingBinaryArray_fresh env s header hs hh]
      simp only [hashingArrayOf, hh, hc.tree_getD]

theorem getBlockHashingBinaryArray_coherent (env : Collaborators) (s : CachedBlock)
    (hc : Coherent env s) : Coherent env (getBlockHashingBinaryArray env s).state := by
  cases hs : s.blockHashingBinaryArray with
  | some c =>
    rw [getBlockHashingBinaryArray_cached env s c hs]
    exact hc
  | none =>
    cases hh : env.toBinaryArrayOfBlockHeader s.block.toBlockHeader with
    | none =>
      rw [getBlockHashingBinaryArray_fails env s hs hh]
      exact hc
    | some header =>
      rw [getBlockHashingBinaryArray_fresh env s header hs hh]
      refine { hc with tree := ?_, hashing := ?_ }
      · intro h hh2
        simp only [Option.some.injEq] at hh2
        rw [← hh2, hc.tree_getD]
      · intro a ha
        simp only [Option.some.injEq] at ha
        rw [← ha]
        simp only [hashingArrayOf, hh, hc.tree_getD]

theorem getBlockHashingBinaryArray_ok (env : Collaborators) (s : CachedBlock)
    (hc : Coherent env s) (a : BinaryArray)
    (h : (getBlockHashingBinaryArray env s).outcome = .ok a) :
    hashingArrayOf env s.block = some a := by
  rw [getBlockHashingBinaryArray_outcome env s hc] at h
  cases hx : hashingArrayOf env s.block with
  | none => rw [hx] at h; cases h
  | some b => rw [hx] at h; cases h; rfl

theorem getBlockHashingBinaryArray_error (env : Collaborators) (s : CachedBlock)
    (hc : Coherent env s) (e : Error)
    (h : (getBlockHashingBinaryArray env s).outcome = .error e) :
    hashingArrayOf env s.block = none ∧ e = .cantSerializeBlockHeader := by
  rw [getBlockHashingBinaryArray_outcome env s hc] at h
  cases hx : hashingArrayOf env s.block with
  | none => rw [hx] at h; cases h; exact ⟨rfl, rfl⟩
  | some b => rw [hx] at h; cases h

theorem hashingArrayOf_eq_none_iff (env : Collaborators) (block : BlockTemplate) :
    hashingArrayOf env block = none ↔ env.toBinaryArrayOfBlockHeader block.toBlockHeader = none := by
  unfold hashingArrayOf
  cases env.toBinaryArrayOfBlockHeader block.toBlockHeader <;> simp

theorem getBlockHash_block (env : Collaborators) (s : CachedBlock) :
    (getBlockHash env s).state.block = s.block := by
  unfold getBlockHash
  split
  · rfl
  · dsimp only
    split
    · exact getBlockHashingBinaryArray_block env s
    · exact getBlockHashingBinaryArray_block env s

theorem getBlockHash_outcome (env : Collaborators) (s : CachedBlock) (hc : Coherent env s) :
    (getBlockHash env s).outcome
      = match hashingArrayOf env s.block with
        | some a => .ok (env.getObjectHashOfBinaryArray a)
        | none => .error .cantSerializeBlockHeader := by
  unfold getBlockHash
  split
  · rename_i cached hs
    obtain ⟨a, ha, hv⟩ := hc.hash cached hs
    simp only [ha, hv]
  · dsimp only
    split
    · rename_i e he
      obtain ⟨h1, h2⟩ := getBlockHashingBinaryArray_error env s hc e he
      simp only [h1, h2]
    · rename_i a ha
      simp only [getBlockHashingBinaryArray_ok env s hc a ha]

theorem getBlockHash_coherent (env : Collaborators) (s : CachedBlock) (hc : Coherent env s) :
    Coherent env (getBlockHash env s).state := by
  unfold getBlockHash
  split
  · exact hc
  · dsimp only
    split
    · exact getBlockHashingBinaryArray_coherent env s hc
    · rename_i a ha
      refine { getBlockHashingBinaryArray_coherent env s hc with hash := ?_ }
      intro h hh
      simp only [Option.some.injEq] at hh
      refine ⟨a, ?_, hh.symm⟩
      simp only [getBlockHashingBinaryArray_block]
      exact getBlockHashingBinaryArray_ok env s hc a ha

theorem getAuxiliaryBlockHeaderHash_block (env : Collaborators) (s : CachedBlock) :
    (getAuxiliaryBlockHeaderHash env s).state.block = s.block := by
  unfold getAuxiliaryBlockHeaderHash
  split
  · rfl
  · dsimp only
    split
    · exact getBlockHashingBinaryArray_block env s
    · exact getBlockHashingBinaryArray_block env s

theorem getAuxiliaryBlockHeaderHash_outcome (env : Collaborators) (s : CachedBlock)
    (hc : Coherent env s) :
    (getAuxiliaryBlockHeaderHash env s).outcome
      = match hashingArrayOf env s.block with
        | some a => .ok (env.getObjectHashOfBinaryArray a)
        | none => .error .cantSerializeBlockHeader := by
  unfold getAuxiliaryBlockHeaderHash
  split
  · rename_i cached hs
    obtain ⟨a, ha, hv⟩ := hc.aux cached hs
    simp only [ha, hv]
  · dsimp only
    split
    · rename_i e he
      obtain ⟨h1, h2⟩ := getBlockHashingBinaryArray_error env s hc e he
      simp only [h1, h2]
    · rename_i a ha
      simp only [getBlockHashingBinaryArray_ok env s hc a ha]

theorem getAuxiliaryBlockHeaderHash_coherent (env : Collaborators) (s : CachedBlock)
    (hc : Coherent env s) : Coherent env (getAuxiliaryBlockHeaderHash env s).state := by
  unfold getAuxiliaryBlockHeaderHash
  split
  · exact hc
  · dsimp only
    split
    · exact getBlockHashingBinaryArray_coherent env s hc
    · rename_i a ha
      refine { getBlockHashingBinaryArray_coherent env s hc with aux := ?_ }
      intro h hh
      simp only [Option.some.injEq] at hh
      refine ⟨a, ?_, hh.symm⟩
      simp only [getBlockHashingBinaryArray_block]
      exact getBlockHashingBinaryArray_ok env s hc a ha

theorem getBlockLongHash_block (env : Collaborators) (s : CachedBlock) :
    (getBlockLongHash env s).state.block = s.block := by
  unfold getBlockLongHash
  split
  · rfl
  · dsimp only
    split
    · exact getBlockHashingBinaryArray_block env s
    · split
      · exact getBlockHashingBinaryArray_block env s
      · exact getBlockHashingBinaryArray_block env s

theorem getBlockLongHash_coherent (env : Collaborators) (s : CachedBlock)
    (hc : Coherent env s) : Coherent env (getBlockLongHash env s).state := by
  unfold getBlockLongHash
  split
  · exact hc
  · dsimp only
    split
    · exact getBlockHashingBinaryArray_coherent env s hc
    · rename_i a ha
      have hb := getBlockHashingBinaryArray_block env s
      have hk := getBlockHashingBinaryArray_ok env s hc a ha
      split
      · rename_i hv
        refine { getBlockHashingBinaryArray_coherent env s hc with long := ?_ }
        intro h hh
        simp only [Option.some.injEq] at hh
        refine ⟨a, ?_, ?_⟩
        · simp only [hb]
          exact hk
        · simp only [longHashSlotOf, hb, hv]
          exact hh.symm
      · rename_i algo hv
        refine { getBlockHashingBinaryArray_coherent env s hc with long := ?_ }
        intro h hh
        simp only [Option.some.injEq] at hh
        refine ⟨a, ?_, ?_⟩
        · simp only [hb]
          exact hk
        · simp only [longHashSlotOf, hb, hv]
          exact hh.symm

theorem getParentBlockBinaryArray_block (env : Collaborators) (headerOnly : Bool)
    (s : CachedBlock) : (getParentBlockBinaryArray env headerOnly s).state.block = s.block := by
  unfold getParentBlockBinaryArray
  split <;> split <;> first | rfl | (split <;> rfl)

theorem getParentBlockBinaryArray_coherent (env : Collaborators) (headerOnly : Bool)
    (s : CachedBlock) (hc : Coherent env s) :
    Coherent env (getParentBlockBinaryArray env headerOnly s).state := by
  unfold getParentBlockBinaryArray
  split
  · split
    · exact hc
    · split
      · rename_i hs _ _ _
        refine { hc with parentHeaderOnly := ?_ }
        intro a ha
        simp at ha
      · rename_i bytes hb
        refine { hc with parentHeaderOnly := ?_ }
        intro a ha
        simp only [Option.some.injEq] at ha
        rw [← ha]
        exact hb
  · split
    · exact hc
    · split
      · refine { hc with parent := ?_ }
        intro a ha
        simp at ha
      · rename_i bytes hb
        refine { hc with parent := ?_ }
        intro a ha
        simp only [Option.some.injEq] at ha
        rw [← ha]
        exact hb

theorem getParentBlockHashingBinaryArray_block (env : Collaborators) (headerOnly : Bool)
    (s : CachedBlock) :
    (getParentBlockHashingBinaryArray env headerOnly s).state.block = s.block := by
  unfold getParentBlockHashingBinaryArray
  split <;> split <;> first | rfl | (split <;> rfl)

theorem getParentBlockHashingBinaryArray_coherent (env : Collaborators) (headerOnly : Bool)
    (s : CachedBlock) (hc : Coherent env s) :
    Coherent env (getParentBlockHashingBinaryArray env headerOnly s).state := by
  unfold getParentBlockHashingBinaryArray
  split
  · split
    · exact hc
    · split
      · refine { hc with parentHashingHeaderOnly := ?_ }
        intro a ha
        simp at ha
      · rename_i bytes hb
        refine { hc with parentHashingHeaderOnly := ?_ }
        intro a ha
        simp only [Option.some.injEq] at ha
        rw [← ha]
        exact hb
  · split
    · exact hc
    · split
      · refine { hc with parentHashing := ?_ }
        intro a ha
        simp at ha
      · rename_i bytes hb
        refine { hc with parentHashing := ?_ }
        intro a ha
        simp only [Option.some.injEq] at ha
        rw [← ha]
        exact hb

/-- What `getBlockIndex` computes when nothing is cached. -/
theorem getBlockIndex_fresh (s : CachedBlock) (hs : s.blockIndex = none) :
    getBlockIndex s
      = ⟨.ok (blockIndexOf s.block), { s with blockIndex := some (blockIndexOf s.block) }, []⟩ := by
  unfold getBlockIndex blockIndexOf
  simp only [hs]
  rcases hi : s.block.baseTransaction.inputs with _ | ⟨x, _ | ⟨y, rest⟩⟩
  · simp
  · cases x <;> simp
  · simp

theorem getBlockIndex_block (s : CachedBlock) : (getBlockIndex s).state.block = s.block := by
  cases hs : s.blockIndex with
  | none => rw [getBlockIndex_fresh s hs]
  | some c =>
    unfold getBlockIndex
    simp only [hs]

theorem getBlockIndex_outcome (env : Collaborators) (s : CachedBlock) (hc : Coherent env s) :
    (getBlockIndex s).outcome = .ok (blockIndexOf s.block) := by
  cases hs : s.blockIndex with
  | none => rw [getBlockIndex_fresh s hs]
  | some c =>
    unfold getBlockIndex
    simp only [hs, hc.index c hs]

theorem getBlockIndex_coherent (env : Collaborators) (s : CachedBlock) (hc : Coherent env s) :
    Coherent env (getBlockIndex s).state := by
  cases hs : s.blockIndex with
  | none =>
    rw [getBlockIndex_fresh s hs]
    refine { hc with index := ?_ }
    intro i hi
    simp only [Option.some.injEq] at hi
    exact hi.symm
  | some c =>
    unfold getBlockIndex
    simp only [hs]
    exact hc

theorem Getter.run_block (env : Collaborators) (g : Getter) (s : CachedBlock) :
    (g.run env s).block = s.block := by
  cases g
  · exact getTransactionTreeHash_block env s
  · exact getBlockHash_block env s
  · exact getBlockLongHash_block env s
  · exact getAuxiliaryBlockHeaderHash_block env s
  · exact getBlockHashingBinaryArray_block env s
  · exact getParentBlockBinaryArray_block env _ s
  · exact getParentBlockHashingBinaryArray_block env _ s
  · exact getBlockIndex_block s

theorem Getter.run_coherent (env : Collaborators) (g : Getter) (s : CachedBlock)
    (hc : Coherent env s) : Coherent env (g.run env s) := by
  cases g
  · exact getTransactionTreeHash_coherent env s hc
  · exact getBlockHash_coherent env s hc
  · exact getBlockLongHash_coherent env s hc
  · exact getAuxiliaryBlockHeaderHash_coherent env s hc
  · exact getBlockHashingBinaryArray_coherent env s hc
  · exact getParentBlockBinaryArray_coherent env _ s hc
  · exact getParentBlockHashingBinaryArray_coherent env _ s hc
  · exact getBlockIndex_coherent env s hc

theorem runAll_block (env : Collaborators) (gs : List Getter) (s : CachedBlock) :
    (runAll env gs s).block = s.block := by
  induction gs generalizing s with
  | nil => rfl
  | cons g gs ih =>
    show (runAll env gs (g.run env s)).block = s.block
    rw [ih, Getter.run_block]

theorem runAll_coherent (env : Collaborators) (gs : List Getter) (s : CachedBlock)
    (hc : Coherent env s) : Coherent env (runAll env gs s) := by
  induction gs generalizing s with
  | nil => exact hc
  | cons g gs ih => exact ih (g.run env s) (Getter.run_coherent env g s hc)

/-- Every state reached from a freshly constructed `CachedBlock` is coherent. -/
theorem reached_coherent (env : Collaborators) (block : BlockTemplate) (gs : List Getter) :
    Coherent env (runAll env gs (CachedBlock.new block)) :=
  runAll_coherent env gs _ (coherent_new env block)

theorem reached_block (env : Collaborators) (block : BlockTemplate) (gs : List Getter) :
    (runAll env gs (CachedBlock.new block)).block = block :=
  runAll_block env gs _

theorem runAll_append (env : Collaborators) (gs hs : List Getter) (s : CachedBlock) :
    runAll env (gs ++ hs) s = runAll env hs (runAll env gs s) := by
  unfold runAll
  rw [List.foldl_append]

theorem getBlockLongHash_outcome (env : Collaborators) (s : CachedBlock) (hc : Coherent env s) :
    (getBlockLongHash env s).outcome
      = match hashingArrayOf env s.block with
        | none => .error .cantSerializeBlockHeader
        | some a =>
          match env.HASHING_ALGORITHMS_BY_BLOCK_VERSION s.block.majorVersion with
          | some hashingAlgorithm => .ok (hashingAlgorithm a)
          | none =>
            if s.blockLongHash.isSome then .ok Hash.zero else .error .unknownBlockMajorVersion := by
  unfold getBlockLongHash
  split
  · rename_i cached hs
    obtain ⟨a, ha, hv⟩ := hc.long cached hs
    simp only [ha, hv, hs, longHashSlotOf, Option.isSome_some, if_true]
    cases env.HASHING_ALGORITHMS_BY_BLOCK_VERSION s.block.majorVersion <;> rfl
  · rename_i hs
    dsimp only
    split
    · rename_i e he
      obtain ⟨h1, h2⟩ := getBlockHashingBinaryArray_error env s hc e he
      simp only [h1, h2]
    · rename_i a ha
      simp only [getBlockHashingBinaryArray_ok env s hc a ha, hs]
      cases env.HASHING_ALGORITHMS_BY_BLOCK_VERSION s.block.majorVersion <;> simp

/-- The defect behind claim C3, for any collaborators: when the header serializes and the
table has no entry for the major version, a call of `getBlockLongHash` on an object whose
long hash is not initialised throws and leaves the member initialised with the
value-initialised hash, which the next call returns. -/
theorem getBlockLongHash_unknown_version_then_zero (env : Collaborators) (s : CachedBlock)
    (hc : Coherent env s) (header : BinaryArray) (hs : s.blockLongHash = none)
    (hh : env.toBinaryArrayOfBlockHeader s.block.toBlockHeader = some header)
    (hv : env.HASHING_ALGORITHMS_BY_BLOCK_VERSION s.block.majorVersion = none) :
    (getBlockLongHash env s).outcome = .error .unknownBlockMajorVersion
      ∧ (getBlockLongHash env (getBlockLongHash env s).state).outcome = .ok Hash.zero := by
  have ha : ∃ a, hashingArrayOf env s.block = some a := by
    unfold hashingArrayOf
    simp only [hh]
    exact ⟨_, rfl⟩
  obtain ⟨a, ha⟩ := ha
  have hl : (getBlockLongHash env s).state.blockLongHash = some Hash.zero := by
    unfold getBlockLongHash
    simp only [hs]
    have ho := getBlockHashingBinaryArray_outcome env s hc
    rw [ha] at ho
    simp only [ho, hv]
  constructor
  · rw [getBlockLongHash_outcome env s hc]
    simp only [ha, hv, hs, Option.isSome_none, Bool.false_eq_true, if_false]
  · rw [getBlockLongHash_outcome env _ (getBlockLongHash_coherent env s hc)]
    simp only [getBlockLongHash_block, ha, hv, hl, Option.isSome_some, if_true]

/-- Claim C3, evaluated where the code departs from it: the block has major version 9, which
the table does not hold, and its header serializes. The first call of `getBlockLongHash`
throws the unknown-version error; the second call on the same object throws nothing and
returns the all-zero hash. -/
theorem getBlockLongHash_unknown_version_second_call :
    sampleCollaborators.HASHING_ALGORITHMS_BY_BLOCK_VERSION (sampleBlock 9 []).majorVersion = none
      ∧ (getBlockLongHash sampleCollaborators (CachedBlock.new (sampleBlock 9 []))).outcome
          = .error .unknownBlockMajorVersion
      ∧ (getBlockLongHash sampleCollaborators
            (getBlockLongHash sampleCollaborators (CachedBlock.new (sampleBlock 9 []))).state).outcome
          = .ok Hash.zero :=
  ⟨rfl, rfl, rfl⟩

theorem hashingArrayOf_of_header (env : Collaborators) (block : BlockTemplate)
    (header : BinaryArray) (hh : env.toBinaryArrayOfBlockHeader block.toBlockHeader = some header) :
    hashingArrayOf env block
      = some (header ++ (treeHashOf env block).bytes
          ++ env.get_varint_data (block.transactionHashes.length + 1)) := by
  unfold hashingArrayOf
  simp only [hh]

/-- Claim C4: for a block whose major version is in the table and whose header serializes,
`getBlockLongHash` returns the hash that the algorithm of that version produces on the
bytes returned by `getBlockHashingBinaryArray()`, on a fresh object (`gs = []`) and after
any earlier calls `gs` of the getters, `getBlockLongHash` among them. -/
theorem getBlockLongHash_known_version (env : Collaborators) (block : BlockTemplate)
    (gs : List Getter) (header : BinaryArray) (hashingAlgorithm : BinaryArray → Hash)
    (hh : env.toBinaryArrayOfBlockHeader block.toBlockHeader = some header)
    (hv : env.HASHING_ALGORITHMS_BY_BLOCK_VERSION block.majorVersion = some hashingAlgorithm) :
    ∃ raw,
      (getBlockHashingBinaryArray env (runAll env gs (CachedBlock.new block))).outcome = .ok raw
        ∧ (getBlockLongHash env (runAll env gs (CachedBlock.new block))).outcome
            = .ok (hashingAlgorithm raw) := by
  have hc := reached_coherent env block gs
  have hb := reached_block env block gs
  refine ⟨header ++ (treeHashOf env block).bytes
    ++ env.get_varint_data (block.transactionHashes.length + 1), ?_, ?_⟩
  · rw [getBlockHashingBinaryArray_outcome env _ hc, hb, hashingArrayOf_of_header env block header hh]
  · rw [getBlockLongHash_outcome env _ hc, hb, hashingArrayOf_of_header env block header hh]
    simp only [hv]

/-- The theorem of claim C4 at a block of major version 1, after a first call of
`getBlockLongHash` and a call of `getBlockHash`. -/
theorem getBlockLongHash_known_version_witness :
    ∃ raw,
      (getBlockHashingBinaryArray sampleCollaborators
          (runAll sampleCollaborators [.blockLongHash, .blockHash]
            (CachedBlock.new (sampleBlock 1 [])))).outcome = .ok raw
        ∧ (getBlockLongHash sampleCollaborators
            (runAll sampleCollaborators [.blockLongHash, .blockHash]
              (CachedBlock.new (sampleBlock 1 [])))).outcome = .ok ((fun _ => Hash.fill 4) raw) :=
  getBlockLongHash_known_version sampleCollaborators (sampleBlock 1 [])
    [.blockLongHash, .blockHash] [1, 0] (fun _ => Hash.fill 4) rfl rfl

/-- Claim C5: for every block whose header serializes, `getBlockHashingBinaryArray` returns
exactly the serialized header, then the 32 bytes of the hash that `getTransactionTreeHash()`
returns, then the varint encoding of `transactionHashes.size() + 1`, and nothing else; on a
fresh object and after any earlier getter calls `gs`. -/
theorem getBlockHashingBinaryArray_layout (env : Collaborators) (block : BlockTemplate)
    (gs : List Getter) (header : BinaryArray)
    (hh : env.toBinaryArrayOfBlockHeader block.toBlockHeader = some header) :
    ∃ treeHash,
      (getTransactionTreeHash env (runAll env gs (CachedBlock.new block))).outcome = .ok treeHash
        ∧ treeHash.bytes.length = 32
        ∧ (getBlockHashingBinaryArray env (runAll env gs (CachedBlock.new block))).outcome
            = .ok (header ++ treeHash.bytes
                ++ env.get_varint_data (block.transactionHashes.length + 1)) := by
  have hc := reached_coherent env block gs
  have hb := reached_block env block gs
  refine ⟨treeHashOf env block, ?_, ?_, ?_⟩
  · rw [getTransactionTreeHash_outcome_eq, hc.tree_getD, hb]
  · simp only [Hash.bytes, List.length_ofFn]
  · rw [getBlockHashingBinaryArray_outcome env _ hc, hb, hashingArrayOf_of_header env block header hh]

/-- The theorem of claim C5 at a block of major version 1, on a fresh object. -/
theorem getBlockHashingBinaryArray_layout_witness :
    ∃ treeHash,
      (getTransactionTreeHash sampleCollaborators
          (runAll sampleCollaborators [] (CachedBlock.new (sampleBlock 1 [])))).outcome
          = .ok treeHash
        ∧ treeHash.bytes.length = 32
        ∧ (getBlockHashingBinaryArray sampleCollaborators
            (runAll sampleCollaborators [] (CachedBlock.new (sampleBlock 1 [])))).outcome
            = .ok ([1, 0] ++ treeHash.bytes
                ++ sampleCollaborators.get_varint_data
                    ((sampleBlock 1 []).transactionHashes.length + 1)) :=
  getBlockHashingBinaryArray_layout sampleCollaborators (sampleBlock 1 []) [] [1, 0] rfl

/-- Claim C6: for every block, `getTransactionTreeHash` returns the tree hash of the list
whose first element is the object hash of the base transaction and whose remaining
elements are `block.transactionHashes` in their order, a list of length
`transactionHashes.size() + 1`; on a fresh object and after any earlier getter calls `gs`. -/
theorem getTransactionTreeHash_value (env : Collaborators) (block : BlockTemplate)
    (gs : List Getter) :
    (getTransactionTreeHash env (runAll env gs (CachedBlock.new block))).outcome
        = .ok (env.tree_hash
            (env.getObjectHashOfTransaction block.baseTransaction :: block.transactionHashes))
      ∧ (env.getObjectHashOfTransaction block.baseTransaction :: block.transactionHashes).length
        = block.transactionHashes.length + 1 := by
  have hc := reached_coherent env block gs
  have hb := reached_block env block gs
  refine ⟨?_, rfl⟩
  rw [getTransactionTreeHash_outcome_eq, hc.tree_getD, hb]
  rfl

/-- Claim C7: for every block whose header serializes, `getBlockHash` returns the object hash
of the byte array returned by `getBlockHashingBinaryArray()`; on a fresh object and after
any earlier getter calls `gs`. -/
theorem getBlockHash_value (env : Collaborators) (block : BlockTemplate) (gs : List Getter)
    (header : BinaryArray)
    (hh : env.toBinaryArrayOfBlockHeader block.toBlockHeader = some header) :
    ∃ a,
      (getBlockHashingBinaryArray env (runAll env gs (CachedBlock.new block))).outcome = .ok a
        ∧ (getBlockHash env (runAll env gs (CachedBlock.new block))).outcome
            = .ok (env.getObjectHashOfBinaryArray a) := by
  have hc := reached_coherent env block gs
  have hb := reached_block env block gs
  refine ⟨header ++ (treeHashOf env block).bytes
    ++ env.get_varint_data (block.transactionHashes.length + 1), ?_, ?_⟩
  · rw [getBlockHashingBinaryArray_outcome env _ hc, hb, hashingArrayOf_of_header env block header hh]
  · rw [getBlockHash_outcome env _ hc, hb, hashingArrayOf_of_header env block header hh]

/-- The theorem of claim C7 at a block of major version 1, after a call of
`getAuxiliaryBlockHeaderHash`. -/
theorem getBlockHash_value_witness :
    ∃ a,
      (getBlockHashingBinaryArray sampleCollaborators
          (runAll sampleCollaborators [.auxiliaryBlockHeaderHash]
            (CachedBlock.new (sampleBlock 1 [])))).outcome = .ok a
        ∧ (getBlockHash sampleCollaborators
            (runAll sampleCollaborators [.auxiliaryBlockHeaderHash]
              (CachedBlock.new (sampleBlock 1 [])))).outcome
            = .ok (sampleCollaborators.getObjectHashOfBinaryArray a) :=
  getBlockHash_value sampleCollaborators (sampleBlock 1 []) [.auxiliaryBlockHeaderHash] [1, 0] rfl

/-- Claim C8: `getBlockHashingBinaryArray` throws exactly when the serialization of the
header fails, and returns a byte array exactly when it succeeds; on a fresh object and
after any earlier getter calls `gs`. -/
theorem getBlockHashingBinaryArray_throws_iff (env : Collaborators) (block : BlockTemplate)
    (gs : List Getter) :
    ((∃ e, (getBlockHashingBinaryArray env (runAll env gs (CachedBlock.new block))).outcome
          = .error e)
        ↔ env.toBinaryArrayOfBlockHeader block.toBlockHeader = none)
      ∧ ((∃ a, (getBlockHashingBinaryArray env (runAll env gs (CachedBlock.new block))).outcome
          = .ok a)
        ↔ ∃ header, env.toBinaryArrayOfBlockHeader block.toBlockHeader = some header) := by
  have hc := reached_coherent env block gs
  have hb := reached_block env block gs
  rw [getBlockHashingBinaryArray_outcome env _ hc, hb]
  cases hh : env.toBinaryArrayOfBlockHeader block.toBlockHeader with
  | none =>
    rw [(hashingArrayOf_eq_none_iff env block).2 hh]
    simp
  | some header =>
    rw [hashingArrayOf_of_header env block header hh]
    simp

/-- Claim C9 as stated fails: on an object whose header does not serialize, the first call
of `getBlockHashingBinaryArray` throws, the next call on the same object throws again, and
that next call has run the header serialization once more. -/
theorem getBlockHashingBinaryArray_failure_is_retried :
    (getBlockHashingBinaryArray unserializableHeader
        (CachedBlock.new (sampleBlock 1 []))).outcome = .error .cantSerializeBlockHeader
      ∧ (getBlockHashingBinaryArray unserializableHeader
          (getBlockHashingBinaryArray unserializableHeader
            (CachedBlock.new (sampleBlock 1 []))).state).outcome
          = .error .cantSerializeBlockHeader
      ∧ (getBlockHashingBinaryArray unserializableHeader
          (getBlockHashingBinaryArray unserializableHeader
            (CachedBlock.new (sampleBlock 1 []))).state).calls = [.serializeBlockHeader] :=
  ⟨rfl, rfl, rfl⟩

/-- Claim C9, amended: once `getBlockHashingBinaryArray` has thrown on a `CachedBlock`
(reached by any getter calls `gs1`), every later call of it on the same object (after any
further getter calls `gs2`) throws the header-serialization error again; the failure is
not cached, for the later call runs the header serialization once more (it is the one
call it makes) and leaves the member uninitialised. -/
theorem getBlockHashingBinaryArray_failure_repeats (env : Collaborators)
    (block : BlockTemplate) (gs1 gs2 : List Getter) (e : Error)
    (hfail : (getBlockHashingBinaryArray env (runAll env gs1 (CachedBlock.new block))).outcome
      = .error e) :
    (getBlockHashingBinaryArray env (runAll env gs2
        (getBlockHashingBinaryArray env (runAll env gs1 (CachedBlock.new block))).state)).outcome
        = .error .cantSerializeBlockHeader
      ∧ (getBlockHashingBinaryArray env (runAll env gs2
          (getBlockHashingBinaryArray env (runAll env gs1 (CachedBlock.new block))).state)).calls
        = [.serializeBlockHeader]
      ∧ (getBlockHashingBinaryArray env (runAll env gs2
          (getBlockHashingBinaryArray env
            (runAll env gs1 (CachedBlock.new block))).state)).state.blockHashingBinaryArray
        = none := by
  have hc1 := reached_coherent env block gs1
  have hb1 := reached_block env block gs1
  obtain ⟨hnone, -⟩ := getBlockHashingBinaryArray_error env _ hc1 e hfail
  rw [hb1] at hnone
  have hh := (hashingArrayOf_eq_none_iff env block).1 hnone
  have hc2 := runAll_coherent env gs2 _ (getBlockHashingBinaryArray_coherent env _ hc1)
  have hb2 : (runAll env gs2 (getBlockHashingBinaryArray env
      (runAll env gs1 (CachedBlock.new block))).state).block = block := by
    rw [runAll_block, getBlockHashingBinaryArray_block, hb1]
  have hs : (runAll env gs2 (getBlockHashingBinaryArray env
      (runAll env gs1 (CachedBlock.new block))).state).blockHashingBinaryArray = none := by
    cases hx : (runAll env gs2 (getBlockHashingBinaryArray env
        (runAll env gs1 (CachedBlock.new block))).state).blockHashingBinaryArray with
    | none => rfl
    | some a =>
      have := hc2.hashing a hx
      rw [hb2, hnone] at this
      cases this
  rw [getBlockHashingBinaryArray_fails env _ hs (by rw [hb2]; exact hh)]
  exact ⟨rfl, rfl, hs⟩

/-- The theorem of the amended claim C9 on an object whose header does not serialize:
the first call throws, `getBlockHash` is called, and the next call throws again. -/
theorem getBlockHashingBinaryArray_failure_repeats_witness :
    (getBlockHashingBinaryArray unserializableHeader (runAll unserializableHeader [.blockHash]
        (getBlockHashingBinaryArray unserializableHeader
          (runAll unserializableHeader [] (CachedBlock.new (sampleBlock 1 [])))).state)).outcome
        = .error .cantSerializeBlockHeader
      ∧ (getBlockHashingBinaryArray unserializableHeader (runAll unserializableHeader [.blockHash]
          (getBlockHashingBinaryArray unserializableHeader
            (runAll unserializableHeader [] (CachedBlock.new (sampleBlock 1 [])))).state)).calls
        = [.serializeBlockHeader]
      ∧ (getBlockHashingBinaryArray unserializableHeader (runAll unserializableHeader [.blockHash]
          (getBlockHashingBinaryArray unserializableHeader
            (runAll unserializableHeader []
              (CachedBlock.new (sampleBlock 1 [])))).state)).state.blockHashingBinaryArray
        = none :=
  getBlockHashingBinaryArray_failure_repeats unserializableHeader (sampleBlock 1 []) []
    [.blockHash] .cantSerializeBlockHeader rfl

/-- Claim C10: `getBlockIndex` never throws; it returns the `blockIndex` of the input of the
base transaction when that transaction has exactly one input and the input is a
`BaseInput`, and 0 in every other case (no input, several inputs, one input of another
kind); on a fresh object and after any earlier getter calls `gs`. -/
theorem getBlockIndex_value (env : Collaborators) (block : BlockTemplate) (gs : List Getter) :
    (getBlockIndex (runAll env gs (CachedBlock.new block))).outcome
      = .ok (match block.baseTransaction.inputs with
          | [.base input] => input.blockIndex
          | _ => 0) := by
  rw [getBlockIndex_outcome env _ (reached_coherent env block gs), reached_block env block gs]
  rfl

/-! ### The difficulty check, path by path -/

theorem mul_fst_lt (a b : Nat) : (mul a b).1 < 2 ^ 64 := by
  rw [mul_fst]
  exact Nat.mod_lt _ (by norm_num)

theorem mul_snd_lt (a b : Nat) : (mul a b).2 < 2 ^ 64 := by
  rw [mul_snd]
  exact Nat.mod_lt _ (by norm_num)

/-- The function `check_hash` written with the projections of `mul`. -/
theorem check_hash_eq (hash : Hash) (d : Nat) :
    check_hash hash d
      = if (mul (limb hash 3) d).2 ≠ 0 then false
        else !cadc (mul (limb hash 2) d).2 (mul (limb hash 3) d).1
          (cadc (mul (limb hash 1) d).2 (mul (limb hash 2) d).1
            (cadd (mul (limb hash 0) d).2 (mul (limb hash 1) d).1)) := rfl

/-- Claim C13: the fast path of `check_hash`. If the high 64 bits of the 128-bit product of
the most significant limb with the difficulty are nonzero, `check_hash` returns false, and
then `H * D >= 2 ^ 256`: the fast path rejects no hash that satisfies the target. -/
theorem check_hash_fast_path (hash : Hash) (difficulty : Nat) (hD : difficulty < 2 ^ 64)
    (hhigh : (mul (limb hash 3) difficulty).2 ≠ 0) :
    check_hash hash difficulty = false ∧ 2 ^ 256 ≤ hashValue hash * difficulty := by
  have hf : check_hash hash difficulty = false := by
    rw [check_hash_eq, if_pos hhigh]
  refine ⟨hf, ?_⟩
  rw [hashValue_eq_limbs]
  by_contra hlt
  have := (check_hash_limbs hash difficulty hD).2 (Nat.lt_of_not_le hlt)
  rw [hf] at this
  cases this

/-- The theorem of claim C13 at the hash whose bytes are all 255 and difficulty 2. -/
theorem check_hash_fast_path_witness :
    check_hash (Hash.fill 255) 2 = false ∧ 2 ^ 256 ≤ hashValue (Hash.fill 255) * 2 :=
  check_hash_fast_path (Hash.fill 255) 2 (by norm_num) (by decide)

/-- Claim C14: the carry helpers compute the carry-out of 64-bit addition. For 64-bit `a`
and `b`, `cadd(a, b)` is true exactly when `a + b >= 2 ^ 64`, and for every boolean `c`,
`cadc(a, b, c)` is true exactly when `a + b + (1 if c else 0) >= 2 ^ 64`, the sums taken
over the unbounded natural numbers. -/
theorem carry_helpers_exact (a b : Nat) (c : Bool) (ha : a < 2 ^ 64) (hb : b < 2 ^ 64) :
    (cadd a b = true ↔ 2 ^ 64 ≤ a + b)
      ∧ (cadc a b c = true ↔ 2 ^ 64 ≤ a + b + (if c then 1 else 0)) :=
  ⟨cadd_iff a b ha hb, cadc_iff a b c ha hb⟩

/-- The theorem of claim C14 at `a = 2 ^ 64 - 2`, `b = 1` and an incoming carry. -/
theorem carry_helpers_exact_witness :
    (cadd 18446744073709551614 1 = true ↔ 2 ^ 64 ≤ 18446744073709551614 + 1)
      ∧ (cadc 18446744073709551614 1 true = true
          ↔ 2 ^ 64 ≤ 18446744073709551614 + 1 + (if true then 1 else 0)) :=
  carry_helpers_exact 18446744073709551614 1 true (by norm_num) (by norm_num)

/-- Claim C15: when the high 64 bits of `limb3 * D` are zero, `check_hash` returns true
exactly when no carry leaves the top addition. With `c1` the carry-out of
`high64(limb0 * D) + low64(limb1 * D)` and `c2` the carry-out of
`high64(limb1 * D) + low64(limb2 * D) + c1`, the result is true exactly when
`high64(limb2 * D) + low64(limb3 * D) + c2 < 2 ^ 64`; the low 64 bits of `limb0 * D` do not
occur. -/
theorem check_hash_slow_path (hash : Hash) (difficulty : Nat)
    (hhigh : (mul (limb hash 3) difficulty).2 = 0) :
    check_hash hash difficulty = true
      ↔ (mul (limb hash 2) difficulty).2 + (mul (limb hash 3) difficulty).1
          + (if 2 ^ 64 ≤ (mul (limb hash 1) difficulty).2 + (mul (limb hash 2) difficulty).1
                + (if 2 ^ 64 ≤ (mul (limb hash 0) difficulty).2
                    + (mul (limb hash 1) difficulty).1 then 1 else 0)
              then 1 else 0) < 2 ^ 64 := by
  rw [check_hash_eq, if_neg (by simpa using hhigh)]
  have k1 := cadd_iff (mul (limb hash 0) difficulty).2 (mul (limb hash 1) difficulty).1
    (mul_snd_lt _ _) (mul_fst_lt _ _)
  have k2 := cadc_iff (mul (limb hash 1) difficulty).2 (mul (limb hash 2) difficulty).1
    (cadd (mul (limb hash 0) difficulty).2 (mul (limb hash 1) difficulty).1)
    (mul_snd_lt _ _) (mul_fst_lt _ _)
  have k3 := cadc_iff (mul (limb hash 2) difficulty).2 (mul (limb hash 3) difficulty).1
    (cadc (mul (limb hash 1) difficulty).2 (mul (limb hash 2) difficulty).1
      (cadd (mul (limb hash 0) difficulty).2 (mul (limb hash 1) difficulty).1))
    (mul_snd_lt _ _) (mul_fst_lt _ _)
  rw [Bool.not_eq_true', ← Bool.not_eq_true, k3]
  have e1 : (if cadd (mul (limb hash 0) difficulty).2 (mul (limb hash 1) difficulty).1 = true
        then 1 else 0)
      = (if 2 ^ 64 ≤ (mul (limb hash 0) difficulty).2 + (mul (limb hash 1) difficulty).1
        then 1 else 0) := by
    simp only [k1]
  rw [e1] at k2
  have e2 : (if cadc (mul (limb hash 1) difficulty).2 (mul (limb hash 2) difficulty).1
        (cadd (mul (limb hash 0) difficulty).2 (mul (limb hash 1) difficulty).1) = true
        then 1 else 0)
      = (if 2 ^ 64 ≤ (mul (limb hash 1) difficulty).2 + (mul (limb hash 2) difficulty).1
            + (if 2 ^ 64 ≤ (mul (limb hash 0) difficulty).2
                + (mul (limb hash 1) difficulty).1 then 1 else 0)
        then 1 else 0) := by
    simp only [k2]
  rw [e2]
  exact Nat.not_le

/-- The theorem of claim C15 at the hash whose bytes are all 1 and difficulty 3. -/
theorem check_hash_slow_path_witness :
    check_hash (Hash.fill 1) 3 = true
      ↔ (mul (limb (Hash.fill 1) 2) 3).2 + (mul (limb (Hash.fill 1) 3) 3).1
          + (if 2 ^ 64 ≤ (mul (limb (Hash.fill 1) 1) 3).2 + (mul (limb (Hash.fill 1) 2) 3).1
                + (if 2 ^ 64 ≤ (mul (limb (Hash.fill 1) 0) 3).2
                    + (mul (limb (Hash.fill 1) 1) 3).1 then 1 else 0)
              then 1 else 0) < 2 ^ 64 :=
  check_hash_slow_path (Hash.fill 1) 3 (by decide)

/-- Claim C16: for every hash and every difficulty `D > 0`, `check_hash` is true exactly when
`H <= floor((2 ^ 256 - 1) / D)`: the hash, as a 256-bit little-endian integer, is compared
against the target obtained from the difficulty by integer division. -/
theorem check_hash_iff_le_target (hash : Hash) (difficulty : Nat) (hpos : 0 < difficulty)
    (hD : difficulty < 2 ^ 64) :
    check_hash hash difficulty = true ↔ hashValue hash ≤ (2 ^ 256 - 1) / difficulty := by
  rw [Nat.le_div_iff_mul_le hpos, check_hash_limbs hash difficulty hD, hashValue_eq_limbs]
  omega

/-- The theorem of claim C16 at the hash whose bytes are all 255 and difficulty 2. -/
theorem check_hash_iff_le_target_witness :
    check_hash (Hash.fill 255) 2 = true ↔ hashValue (Hash.fill 255) ≤ (2 ^ 256 - 1) / 2 :=
  check_hash_iff_le_target (Hash.fill 255) 2 (by norm_num) (by norm_num)

/-! ### Idempotence of the getters -/

/-- The three ways a call of `getBlockHashingBinaryArray` can go. -/
theorem getBlockHashingBinaryArray_cases (env : Collaborators) (s : CachedBlock) :
    (∃ cached, s.blockHashingBinaryArray = some cached
        ∧ getBlockHashingBinaryArray env s = ⟨.ok cached, s, []⟩)
      ∨ (s.blockHashingBinaryArray = none
        ∧ getBlockHashingBinaryArray env s
            = ⟨.error .cantSerializeBlockHeader, s, [.serializeBlockHeader]⟩)
      ∨ (∃ header, s.blockHashingBinaryArray = none
        ∧ getBlockHashingBinaryArray env s
          = ⟨.ok (header ++ (s.transactionTreeHash.getD (treeHashOf env s.block)).bytes
                ++ env.get_varint_data (s.block.transactionHashes.length + 1)),
              { s with
                transactionTreeHash := some (s.transactionTreeHash.getD (treeHashOf env s.block))
                blockHashingBinaryArray :=
                  some (header ++ (s.transactionTreeHash.getD (treeHashOf env s.block)).bytes
                    ++ env.get_varint_data (s.block.transactionHashes.length + 1)) },
              .serializeBlockHeader ::
                (if s.transactionTreeHash.isSome then []
                  else [.objectHashOfTransaction, .treeHash])⟩) := by
  cases hs : s.blockHashingBinaryArray with
  | some c => exact Or.inl ⟨c, rfl, getBlockHashingBinaryArray_cached env s c hs⟩
  | none =>
    cases hh : env.toBinaryArrayOfBlockHeader s.block.toBlockHeader with
    | none => exact Or.inr (Or.inl ⟨rfl, getBlockHashingBinaryArray_fails env s hs hh⟩)
    | some header =>
      exact Or.inr (Or.inr ⟨header, rfl, getBlockHashingBinaryArray_fresh env s header hs hh⟩)

theorem getBlockHashingBinaryArray_blockHash (env : Collaborators) (s : CachedBlock) :
    (getBlockHashingBinaryArray env s).state.blockHash = s.blockHash := by
  rcases getBlockHashingBinaryArray_cases env s with ⟨c, -, h⟩ | ⟨-, h⟩ | ⟨header, -, h⟩ <;>
    rw [h]

/-- A second call of `getBlockHashingBinaryArray` gives the outcome of the first and leaves
the state of the first. -/
theorem getBlockHashingBinaryArray_twice (env : Collaborators) (s : CachedBlock) :
    (getBlockHashingBinaryArray env (getBlockHashingBinaryArray env s).state).outcome
        = (getBlockHashingBinaryArray env s).outcome
      ∧ (getBlockHashingBinaryArray env (getBlockHashingBinaryArray env s).state).state
        = (getBlockHashingBinaryArray env s).state := by
  rcases getBlockHashingBinaryArray_cases env s with ⟨c, -, h⟩ | ⟨-, h⟩ | ⟨header, -, h⟩
  · rw [h]
    dsimp only
    rw [h]
    exact ⟨rfl, rfl⟩
  · rw [h]
    dsimp only
    rw [h]
    exact ⟨rfl, rfl⟩
  · rw [h]
    dsimp only
    rw [getBlockHashingBinaryArray_cached env _ _ rfl]
    exact ⟨rfl, rfl⟩

theorem getBlockHash_twice (env : Collaborators) (s : CachedBlock) :
    (getBlockHash env (getBlockHash env s).state).outcome = (getBlockHash env s).outcome
      ∧ (getBlockHash env (getBlockHash env s).state).state = (getBlockHash env s).state := by
  cases hs : s.blockHash with
  | some c =>
    have h : getBlockHash env s = ⟨.ok c, s, []⟩ := by
      unfold getBlockHash
      simp only [hs]
    rw [h]
    dsimp only
    rw [h]
    exact ⟨rfl, rfl⟩
  | none =>
    cases ho : (getBlockHashingBinaryArray env s).outcome with
    | error e =>
      have h : getBlockHash env s
          = ⟨.error e, (getBlockHashingBinaryArray env s).state,
              (getBlockHashingBinaryArray env s).calls⟩ := by
        unfold getBlockHash
        simp only [hs, ho]
      have h2 : getBlockHash env (getBlockHashingBinaryArray env s).state
          = ⟨.error e, (getBlockHashingBinaryArray env s).state,
              (getBlockHashingBinaryArray env (getBlockHashingBinaryArray env s).state).calls⟩ := by
        unfold getBlockHash
        simp only [getBlockHashingBinaryArray_blockHash, hs,
          (getBlockHashingBinaryArray_twice env s).1, (getBlockHashingBinaryArray_twice env s).2, ho]
      rw [h]
      dsimp only
      rw [h2]
      exact ⟨rfl, rfl⟩
    | ok a =>
      have h : getBlockHash env s
          = ⟨.ok (env.getObjectHashOfBinaryArray a),
              { (getBlockHashingBinaryArray env s).state with
                blockHash := some (env.getObjectHashOfBinaryArray a) },
              (getBlockHashingBinaryArray env s).calls ++ [.objectHashOfBinaryArray]⟩ := by
        unfold getBlockHash
        simp only [hs, ho]
      rw [h]
      dsimp only
      have h2 : getBlockHash env
            { (getBlockHashingBinaryArray env s).state with
              blockHash := some (env.getObjectHashOfBinaryArray a) }
          = ⟨.ok (env.getObjectHashOfBinaryArray a),
              { (getBlockHashingBinaryArray env s).state with
                blockHash := some (env.getObjectHashOfBinaryArray a) }, []⟩ := by
        unfold getBlockHash
        simp only
      rw [h2]
      exact ⟨rfl, rfl⟩

theorem getTransactionTreeHash_twice (env : Collaborators) (s : CachedBlock) :
    (getTransactionTreeHash env (getTransactionTreeHash env s).state).outcome
        = (getTransactionTreeHash env s).outcome
      ∧ (getTransactionTreeHash env (getTransactionTreeHash env s).state).state
        = (getTransactionTreeHash env s).state := by
  constructor
  · rw [getTransactionTreeHash_outcome_eq, getTransactionTreeHash_outcome_eq,
      getTransactionTreeHash_state_eq]
    simp only [Option.getD_some]
  · rw [getTransactionTreeHash_state_eq, getTransactionTreeHash_state_eq]
    simp only [Option.getD_some]

/-- Claim C11: `getBlockHash` and `getTransactionTreeHash` are idempotent. For every
`CachedBlock`, whatever its cache holds, calling either getter a second time gives the
outcome of the first call (the same hash, or the same error), and the second call leaves
every member of the object as the first call left it. -/
theorem getBlockHash_getTransactionTreeHash_idempotent (env : Collaborators) (s : CachedBlock) :
    ((getBlockHash env (getBlockHash env s).state).outcome = (getBlockHash env s).outcome
        ∧ (getBlockHash env (getBlockHash env s).state).state = (getBlockHash env s).state)
      ∧ ((getTransactionTreeHash env (getTransactionTreeHash env s).state).outcome
          = (getTransactionTreeHash env s).outcome
        ∧ (getTransactionTreeHash env (getTransactionTreeHash env s).state).state
          = (getTransactionTreeHash env s).state) :=
  ⟨getBlockHash_twice env s, getTransactionTreeHash_twice env s⟩

/-! ### Counting calls -/

theorem getBlockHashingBinaryArray_treeHash_budget (env : Collaborators) (s : CachedBlock) :
    (getBlockHashingBinaryArray env s).calls.count .treeHash
        + (if (getBlockHashingBinaryArray env s).state.transactionTreeHash.isSome then 0 else 1)
      ≤ (if s.transactionTreeHash.isSome then 0 else 1) := by
  rcases getBlockHashingBinaryArray_cases env s with ⟨c, -, h⟩ | ⟨-, h⟩ | ⟨header, -, h⟩
  · rw [h]
    simp
  · rw [h]
    simp
  · rw [h]
    cases s.transactionTreeHash <;> simp

theorem getBlockHashingBinaryArray_no_objectHash (env : Collaborators) (s : CachedBlock) :
    (getBlockHashingBinaryArray env s).calls.count .objectHashOfBinaryArray = 0 := by
  rcases getBlockHashingBinaryArray_cases env s with ⟨c, -, h⟩ | ⟨-, h⟩ | ⟨header, -, h⟩
  · rw [h]
    simp
  · rw [h]
    simp
  · rw [h]
    cases s.transactionTreeHash <;> simp

/-- One call of `getBlockHash` or `getTransactionTreeHash` calls `tree_hash` at most once,
and only when the tree hash is not cached; afterwards it is cached whenever it was called. -/
theorem treeHash_budget_step (env : Collaborators) (g : Getter) (s : CachedBlock)
    (hg : g = .blockHash ∨ g = .transactionTreeHash) :
    (g.calls env s).count .treeHash
        + (if (g.run env s).transactionTreeHash.isSome then 0 else 1)
      ≤ (if s.transactionTreeHash.isSome then 0 else 1) := by
  rcases hg with rfl | rfl
  · show (getBlockHash env s).calls.count .treeHash
        + (if (getBlockHash env s).state.transactionTreeHash.isSome then 0 else 1) ≤ _
    have hb := getBlockHashingBinaryArray_treeHash_budget env s
    unfold getBlockHash
    split
    · simp
    · dsimp only
      split
      · exact hb
      · simpa using hb
  · show (getTransactionTreeHash env s).calls.count .treeHash
        + (if (getTransactionTreeHash env s).state.transactionTreeHash.isSome then 0 else 1) ≤ _
    rw [getTransactionTreeHash_calls_eq, getTransactionTreeHash_state_eq]
    cases s.transactionTreeHash <;> simp

/-- One call of `getBlockHash` or `getTransactionTreeHash` computes the object hash of the
hashing binary array at most once, and only when the block hash is not cached; afterwards
the block hash is cached whenever it was computed. -/
theorem objectHash_budget_step (env : Collaborators) (g : Getter) (s : CachedBlock)
    (hg : g = .blockHash ∨ g = .transactionTreeHash) :
    (g.calls env s).count .objectHashOfBinaryArray
        + (if (g.run env s).blockHash.isSome then 0 else 1)
      ≤ (if s.blockHash.isSome then 0 else 1) := by
  rcases hg with rfl | rfl
  · show (getBlockHash env s).calls.count .objectHashOfBinaryArray
        + (if (getBlockHash env s).state.blockHash.isSome then 0 else 1) ≤ _
    have hn := getBlockHashingBinaryArray_no_objectHash env s
    have hk := getBlockHashingBinaryArray_blockHash env s
    unfold getBlockHash
    split
    · simp
    · rename_i hs
      dsimp only
      split
      · simp [hn, hk, hs]
      · simp [hn, hs]
  · show (getTransactionTreeHash env s).calls.count .objectHashOfBinaryArray
        + (if (getTransactionTreeHash env s).state.blockHash.isSome then 0 else 1) ≤ _
    rw [getTransactionTreeHash_calls_eq, getTransactionTreeHash_state_eq]
    cases s.transactionTreeHash <;> simp

theorem callsOf_budget (env : Collaborators) (gs : List Getter)
    (hgs : ∀ g ∈ gs, g = .blockHash ∨ g = .transactionTreeHash) (s : CachedBlock) :
    (callsOf env gs s).count .treeHash ≤ (if s.transactionTreeHash.isSome then 0 else 1)
      ∧ (callsOf env gs s).count .objectHashOfBinaryArray
        ≤ (if s.blockHash.isSome then 0 else 1) := by
  induction gs generalizing s with
  | nil => simp [callsOf]
  | cons g gs ih =>
    have hg := hgs g (List.mem_cons_self g gs)
    have hrest := ih (fun x hx => hgs x (List.mem_cons_of_mem g hx)) (g.run env s)
    have h1 := treeHash_budget_step env g s hg
    have h2 := objectHash_budget_step env g s hg
    simp only [callsOf, List.count_append]
    constructor
    · exact le_trans (Nat.add_le_add_left hrest.1 _) h1
    · exact le_trans (Nat.add_le_add_left hrest.2 _) h2

/-- Claim C12: with a counter on the calls made, for every sequence `gs` of calls of
`getBlockHash` and `getTransactionTreeHash` on one freshly constructed `CachedBlock`, the
tree-hash function is called at most once and the object hash of the hashing binary array
is computed at most once. -/
theorem tree_hash_and_block_hash_computed_at_most_once (env : Collaborators)
    (block : BlockTemplate) (gs : List Getter)
    (hgs : ∀ g ∈ gs, g = .blockHash ∨ g = .transactionTreeHash) :
    (callsOf env gs (CachedBlock.new block)).count .treeHash ≤ 1
      ∧ (callsOf env gs (CachedBlock.new block)).count .objectHashOfBinaryArray ≤ 1 :=
  callsOf_budget env gs hgs (CachedBlock.new block)

/-- The theorem of claim C12 for the calls `getBlockHash`, `getTransactionTreeHash`,
`getBlockHash`, `getBlockHash` on a block of major version 1. -/
theorem tree_hash_and_block_hash_computed_at_most_once_witness :
    (callsOf sampleCollaborators [.blockHash, .transactionTreeHash, .blockHash, .blockHash]
        (CachedBlock.new (sampleBlock 1 []))).count .treeHash ≤ 1
      ∧ (callsOf sampleCollaborators [.blockHash, .transactionTreeHash, .blockHash, .blockHash]
          (CachedBlock.new (sampleBlock 1 []))).count .objectHashOfBinaryArray ≤ 1 :=
  tree_hash_and_block_hash_computed_at_most_once sampleCollaborators (sampleBlock 1 [])
    [.blockHash, .transactionTreeHash, .blockHash, .blockHash] (by decide)

/-! ### The binary output stream serializer -/

theorem map_data_range (value : List (Fin 256)) :
    (List.range value.length).map (data value) = value := by
  apply List.ext_getElem
  · simp
  · intro i h1 h2
    simp [data, List.getD_eq_getElem?_getD, List.getElem?_eq_getElem h2]

/-- Claim C17: `BinaryOutputStreamSerializer::binary(value, size)` returns true and leaves
the stream equal to what it was before followed by the `size` bytes `value[0], ...,
value[size - 1]` of the buffer: no length prefix, no other byte, and everything written
before is kept as a prefix. -/
theorem BinaryOutputStreamSerializer.binary_appends_raw_bytes
    (self : BinaryOutputStreamSerializer) (value : Buffer) (size : Nat) (name : StringView) :
    (self.binary value size name).1 = true
      ∧ (self.binary value size name).2.stream = self.stream ++ (List.range size).map value
      ∧ ((List.range size).map value).length = size
      ∧ (self.binary value size name).2.stream.length = self.stream.length + size
      ∧ self.stream <+: (self.binary value size name).2.stream := by
  refine ⟨rfl, rfl, by simp, ?_, ?_⟩
  · simp [BinaryOutputStreamSerializer.binary, BinaryOutputStreamSerializer.checkedWrite, write]
  · exact ⟨(List.range size).map value, rfl⟩

/-- Claim C18: for every string `s`, the string operator of `BinaryOutputStreamSerializer`
appends the varint of `s.size()` followed by the `s.size()` bytes of `s` and returns true,
and `binary(std::string &)` returns the same flag and writes the same bytes as the string
operator. -/
theorem BinaryOutputStreamSerializer.string_is_size_prefixed (varint : Nat → BinaryArray)
    (self : BinaryOutputStreamSerializer) (value : List (Fin 256)) (name : StringView) :
    self.operatorString varint value name
        = (true, ⟨self.stream ++ varint value.length ++ value⟩)
      ∧ self.binaryString varint value name = self.operatorString varint value name := by
  refine ⟨?_, rfl⟩
  simp only [BinaryOutputStreamSerializer.operatorString,
    BinaryOutputStreamSerializer.checkedWrite, write, writeVarint, map_data_range]

/-- Claim C19: serializing a double with `BinaryOutputStreamSerializer` is not supported.
For every double value, in a build with assertions as in one without, the operator stops
with an error, returns no result, and leaves the stream as it was. -/
theorem BinaryOutputStreamSerializer.double_is_unsupported (ndebug : Bool)
    (self : BinaryOutputStreamSerializer) (value : Float) (name : StringView) :
    (∃ e, (self.operatorDouble ndebug value name).1 = .error e)
      ∧ (∀ result, (self.operatorDouble ndebug value name).1 ≠ .ok result)
      ∧ (self.operatorDouble ndebug value name).2.stream = self.stream := by
  cases ndebug <;>
    simp [BinaryOutputStreamSerializer.operatorDouble]

/-! ### Monotonicity of the difficulty check -/

theorem hashValue_zero : hashValue Hash.zero = 0 := by
  unfold hashValue Hash.zero
  simp

/-- Claim C22: `check_hash` is monotone. For hashes `H' <= H` (compared as 256-bit
little-endian integers) and difficulties `D' <= D`, if `check_hash(H, D)` is true then
`check_hash(H', D')` is true; in particular the all-zero hash passes for every difficulty. -/
theorem check_hash_monotone (hash hash' : Hash) (difficulty difficulty' : Nat)
    (hD : difficulty < 2 ^ 64) (hH : hashValue hash' ≤ hashValue hash)
    (hDD : difficulty' ≤ difficulty) :
    (check_hash hash difficulty = true → check_hash hash' difficulty' = true)
      ∧ check_hash Hash.zero difficulty = true := by
  constructor
  · intro h
    have h1 := (check_hash_limbs hash difficulty hD).1 h
    rw [← hashValue_eq_limbs] at h1
    apply (check_hash_limbs hash' difficulty' (lt_of_le_of_lt hDD hD)).2
    rw [← hashValue_eq_limbs]
    exact lt_of_le_of_lt (Nat.mul_le_mul hH hDD) h1
  · apply (check_hash_limbs Hash.zero difficulty hD).2
    rw [← hashValue_eq_limbs, hashValue_zero, Nat.zero_mul]
    norm_num

/-- The theorem of claim C22 at the hashes of all-1 bytes and all-2 bytes and the
difficulties 3 and 7: the larger hash passes at 7, so the smaller passes at 3. -/
theorem check_hash_monotone_witness :
    check_hash (Hash.fill 1) 3 = true ∧ check_hash Hash.zero 7 = true :=
  ⟨(check_hash_monotone (Hash.fill 2) (Hash.fill 1) 7 3 (by norm_num) (by decide)
      (by norm_num)).1 (by decide),
    (check_hash_monotone (Hash.fill 2) (Hash.fill 1) 7 3 (by norm_num) (by decide)
      (by norm_num)).2⟩

/-! ### Transparency of the cache -/

theorem getParentBlockBinaryArray_outcome (env : Collaborators) (headerOnly : Bool)
    (s : CachedBlock) (hc : Coherent env s) :
    (getParentBlockBinaryArray env headerOnly s).outcome
      = match env.toBinaryArrayOfParentBlock s.block false headerOnly with
        | some bytes => .ok bytes
        | none =>
          .error (if headerOnly then .cantSerializeParentBlockHeader
            else .cantSerializeParentBlock) := by
  unfold getParentBlockBinaryArray
  cases headerOnly
  · simp only [Bool.false_eq_true, if_false]
    split
    · rename_i cached hs
      rw [hc.parent cached hs]
    · split
      · rename_i hb
        rw [hb]
      · rename_i bytes hb
        rw [hb]
  · simp only [if_true]
    split
    · rename_i cached hs
      rw [hc.parentHeaderOnly cached hs]
    · split
      · rename_i hb
        rw [hb]
      · rename_i bytes hb
        rw [hb]

theorem getParentBlockHashingBinaryArray_outcome (env : Collaborators) (headerOnly : Bool)
    (s : CachedBlock) (hc : Coherent env s) :
    (getParentBlockHashingBinaryArray env headerOnly s).outcome
      = match env.toBinaryArrayOfParentBlock s.block true headerOnly with
        | some bytes => .ok bytes
        | none =>
          .error (if headerOnly then .cantSerializeParentBlockHeaderForHashing
            else .cantSerializeParentBlockForHashing) := by
  unfold getParentBlockHashingBinaryArray
  cases headerOnly
  · simp only [Bool.false_eq_true, if_false]
    split
    · rename_i cached hs
      rw [hc.parentHashing cached hs]
    · split
      · rename_i hb
        rw [hb]
      · rename_i bytes hb
        rw [hb]
  · simp only [if_true]
    split
    · rename_i cached hs
      rw [hc.parentHashingHeaderOnly cached hs]
    · split
      · rename_i hb
        rw [hb]
      · rename_i bytes hb
        rw [hb]

/-- Claim C23: the cache is transparent. After any sequence `gs` of earlier getter calls on a
`CachedBlock` (failed calls and calls of `getBlockLongHash` among them),
`getTransactionTreeHash`, `getBlockHashingBinaryArray`, `getBlockHash`,
`getAuxiliaryBlockHeaderHash`, `getBlockIndex` and the two parent-block array getters each
give the outcome (the same value, or the same serialization error) that they give on a
freshly constructed `CachedBlock` of the same block. -/
theorem cache_is_transparent (env : Collaborators) (block : BlockTemplate) (gs : List Getter)
    (headerOnly : Bool) :
    (getTransactionTreeHash env (runAll env gs (CachedBlock.new block))).outcome
        = (getTransactionTreeHash env (CachedBlock.new block)).outcome
      ∧ (getBlockHashingBinaryArray env (runAll env gs (CachedBlock.new block))).outcome
        = (getBlockHashingBinaryArray env (CachedBlock.new block)).outcome
      ∧ (getBlockHash env (runAll env gs (CachedBlock.new block))).outcome
        = (getBlockHash env (CachedBlock.new block)).outcome
      ∧ (getAuxiliaryBlockHeaderHash env (runAll env gs (CachedBlock.new block))).outcome
        = (getAuxiliaryBlockHeaderHash env (CachedBlock.new block)).outcome
      ∧ (getBlockIndex (runAll env gs (CachedBlock.new block))).outcome
        = (getBlockIndex (CachedBlock.new block)).outcome
      ∧ (getParentBlockBinaryArray env headerOnly
          (runAll env gs (CachedBlock.new block))).outcome
        = (getParentBlockBinaryArray env headerOnly (CachedBlock.new block)).outcome
      ∧ (getParentBlockHashingBinaryArray env headerOnly
          (runAll env gs (CachedBlock.new block))).outcome
        = (getParentBlockHashingBinaryArray env headerOnly (CachedBlock.new block)).outcome := by
  have hc := reached_coherent env block gs
  have hb := reached_block env block gs
  have hc0 := coherent_new env block
  have hb0 : (CachedBlock.new block).block = block := rfl
  refine ⟨?_, ?_, ?_, ?_, ?_, ?_, ?_⟩
  · rw [getTransactionTreeHash_outcome_eq, getTransactionTreeHash_outcome_eq, hc.tree_getD,
      hc0.tree_getD, hb, hb0]
  · rw [getBlockHashingBinaryArray_outcome env _ hc, getBlockHashingBinaryArray_outcome env _ hc0,
      hb, hb0]
  · rw [getBlockHash_outcome env _ hc, getBlockHash_outcome env _ hc0, hb, hb0]
  · rw [getAuxiliaryBlockHeaderHash_outcome env _ hc,
      getAuxiliaryBlockHeaderHash_outcome env _ hc0, hb, hb0]
  · rw [getBlockIndex_outcome env _ hc, getBlockIndex_outcome env _ hc0, hb, hb0]
  · rw [getParentBlockBinaryArray_outcome env _ _ hc,
      getParentBlockBinaryArray_outcome env _ _ hc0, hb, hb0]
  · rw [getParentBlockHashingBinaryArray_outcome env _ _ hc,
      getParentBlockHashingBinaryArray_outcome env _ _ hc0, hb, hb0]

/-! ### Atomicity of a failed serialization -/

theorem getBlockHashingBinaryArray_error_state (env : Collaborators) (s : CachedBlock)
    (e : Error) (h : (getBlockHashingBinaryArray env s).outcome = .error e) :
    (getBlockHashingBinaryArray env s).state = s := by
  rcases getBlockHashingBinaryArray_cases env s with ⟨c, -, hx⟩ | ⟨-, hx⟩ | ⟨header, -, hx⟩
  · rw [hx]
  · rw [hx]
  · rw [hx] at h
    cases h

/-- Claim C24: failure is atomic for serialization errors. If `getBlockHashingBinaryArray`,
`getBlockHash`, `getAuxiliaryBlockHeaderHash`, `getParentBlockBinaryArray` or
`getParentBlockHashingBinaryArray` throws, every member of the `CachedBlock` is left as it
was before the call; this holds whatever the cache held before. -/
theorem serialization_failure_is_atomic (env : Collaborators) (s : CachedBlock) (e : Error)
    (headerOnly : Bool) :
    ((getBlockHashingBinaryArray env s).outcome = .error e
        → (getBlockHashingBinaryArray env s).state = s)
      ∧ ((getBlockHash env s).outcome = .error e → (getBlockHash env s).state = s)
      ∧ ((getAuxiliaryBlockHeaderHash env s).outcome = .error e
        → (getAuxiliaryBlockHeaderHash env s).state = s)
      ∧ ((getParentBlockBinaryArray env headerOnly s).outcome = .error e
        → (getParentBlockBinaryArray env headerOnly s).state = s)
      ∧ ((getParentBlockHashingBinaryArray env headerOnly s).outcome = .error e
        → (getParentBlockHashingBinaryArray env headerOnly s).state = s) := by
  refine ⟨getBlockHashingBinaryArray_error_state env s e, ?_, ?_, ?_, ?_⟩
  · unfold getBlockHash
    split
    · intro h
      cases h
    · dsimp only
      split
      · rename_i e2 he
        intro _
        exact getBlockHashingBinaryArray_error_state env s e2 he
      · intro h
        cases h
  · unfold getAuxiliaryBlockHeaderHash
    split
    · intro h
      cases h
    · dsimp only
      split
      · rename_i e2 he
        intro _
        exact getBlockHashingBinaryArray_error_state env s e2 he
      · intro h
        cases h
  · unfold getParentBlockBinaryArray
    split
    · split
      · intro h
        cases h
      · rename_i hs
        split
        · intro _
          cases s
          simp only at hs
          simp only [hs]
        · intro h
          cases h
    · split
      · intro h
        cases h
      · rename_i hs
        split
        · intro _
          cases s
          simp only at hs
          simp only [hs]
        · intro h
          cases h
  · unfold getParentBlockHashingBinaryArray
    split
    · split
      · intro h
        cases h
      · rename_i hs
        split
        · intro _
          cases s
          simp only at hs
          simp only [hs]
        · intro h
          cases h
    · split
      · intro h
        cases h
      · rename_i hs
        split
        · intro _
          cases s
          simp only at hs
          simp only [hs]
        · intro h
          cases h

/-- The theorem of claim C24 on an object whose header does not serialize and whose tree
hash is already cached: `getBlockHashingBinaryArray` and `getBlockHash` throw and leave
the object as it was. -/
theorem serialization_failure_is_atomic_witness :
    (getBlockHashingBinaryArray unserializableHeader
        (runAll unserializableHeader [.transactionTreeHash]
          (CachedBlock.new (sampleBlock 1 [])))).state
        = runAll unserializableHeader [.transactionTreeHash] (CachedBlock.new (sampleBlock 1 []))
      ∧ (getBlockHash unserializableHeader
          (runAll unserializableHeader [.transactionTreeHash]
            (CachedBlock.new (sampleBlock 1 [])))).state
        = runAll unserializableHeader [.transactionTreeHash]
            (CachedBlock.new (sampleBlock 1 [])) :=
  ⟨(serialization_failure_is_atomic unserializableHeader
      (runAll unserializableHeader [.transactionTreeHash] (CachedBlock.new (sampleBlock 1 [])))
      .cantSerializeBlockHeader false).1 rfl,
    (serialization_failure_is_atomic unserializableHeader
      (runAll unserializableHeader [.transactionTreeHash] (CachedBlock.new (sampleBlock 1 [])))
      .cantSerializeBlockHeader false).2.1 rfl⟩

/-! ### The auxiliary block header hash -/

/-- Claim C25: for every block whose header serializes, `getAuxiliaryBlockHeaderHash` returns
the hash that `getBlockHash` returns, in whichever order the two getters are called, on a
fresh object and after any earlier getter calls `gs`. -/
theorem getAuxiliaryBlockHeaderHash_eq_getBlockHash (env : Collaborators)
    (block : BlockTemplate) (gs : List Getter) (header : BinaryArray)
    (hh : env.toBinaryArrayOfBlockHeader block.toBlockHeader = some header) :
    ∃ hash,
      (getBlockHash env (runAll env gs (CachedBlock.new block))).outcome = .ok hash
        ∧ (getAuxiliaryBlockHeaderHash env
            (getBlockHash env (runAll env gs (CachedBlock.new block))).state).outcome = .ok hash
        ∧ (getAuxiliaryBlockHeaderHash env (runAll env gs (CachedBlock.new block))).outcome
            = .ok hash
        ∧ (getBlockHash env
            (getAuxiliaryBlockHeaderHash env
              (runAll env gs (CachedBlock.new block))).state).outcome = .ok hash := by
  have hc := reached_coherent env block gs
  have hb := reached_block env block gs
  have ha := hashingArrayOf_of_header env block header hh
  refine ⟨env.getObjectHashOfBinaryArray (header ++ (treeHashOf env block).bytes
    ++ env.get_varint_data (block.transactionHashes.length + 1)), ?_, ?_, ?_, ?_⟩
  · rw [getBlockHash_outcome env _ hc, hb, ha]
  · rw [getAuxiliaryBlockHeaderHash_outcome env _ (getBlockHash_coherent env _ hc),
      getBlockHash_block, hb, ha]
  · rw [getAuxiliaryBlockHeaderHash_outcome env _ hc, hb, ha]
  · rw [getBlockHash_outcome env _ (getAuxiliaryBlockHeaderHash_coherent env _ hc),
      getAuxiliaryBlockHeaderHash_block, hb, ha]

/-- The theorem of claim C25 at a block of major version 1, on a fresh object. -/
theorem getAuxiliaryBlockHeaderHash_eq_getBlockHash_witness :
    ∃ hash,
      (getBlockHash sampleCollaborators
          (runAll sampleCollaborators [] (CachedBlock.new (sampleBlock 1 [])))).outcome
          = .ok hash
        ∧ (getAuxiliaryBlockHeaderHash sampleCollaborators
            (getBlockHash sampleCollaborators
              (runAll sampleCollaborators [] (CachedBlock.new (sampleBlock 1 [])))).state).outcome
            = .ok hash
        ∧ (getAuxiliaryBlockHeaderHash sampleCollaborators
            (runAll sampleCollaborators [] (CachedBlock.new (sampleBlock 1 [])))).outcome
            = .ok hash
        ∧ (getBlockHash sampleCollaborators
            (getAuxiliaryBlockHeaderHash sampleCollaborators
              (runAll sampleCollaborators [] (CachedBlock.new (sampleBlock 1 [])))).state).outcome
            = .ok hash :=
  getAuxiliaryBlockHeaderHash_eq_getBlockHash sampleCollaborators (sampleBlock 1 []) [] [1, 0] rfl

end CryptoNote

/-! ### The address book entry -/

/-- Claim C20: `AddressBookEntry` equality compares the friendly name only. For all entries
`a` and `b`, `a == b` holds exactly when their friendly names are equal, whatever their
address and payment ID; hence `==` is reflexive, symmetric and transitive. -/
theorem AddressBookEntry.operatorEq_compares_friendlyName :
    (∀ a b : AddressBookEntry, a.operatorEq b = true ↔ a.friendlyName = b.friendlyName)
      ∧ (∀ a : AddressBookEntry, a.operatorEq a = true)
      ∧ (∀ a b : AddressBookEntry, a.operatorEq b = true → b.operatorEq a = true)
      ∧ (∀ a b c : AddressBookEntry,
          a.operatorEq b = true → b.operatorEq c = true → a.operatorEq c = true) := by
  have key : ∀ a b : AddressBookEntry,
      a.operatorEq b = true ↔ a.friendlyName = b.friendlyName := by
    intro a b
    simp only [AddressBookEntry.operatorEq, beq_iff_eq]
    exact eq_comm
  refine ⟨key, ?_, ?_, ?_⟩
  · intro a
    exact (key a a).2 rfl
  · intro a b h
    exact (key b a).2 ((key a b).1 h).symm
  · intro a b c h1 h2
    exact (key a c).2 (((key a b).1 h1).trans ((key b c).1 h2))

/-- The theorem of claim C20 at two entries that share the name alice and differ in
address and payment ID: they compare equal, in both orders. -/
theorem AddressBookEntry.operatorEq_compares_friendlyName_witness :
    sampleEntryAlice.operatorEq sampleEntryAliceAgain = true
      ∧ sampleEntryAliceAgain.operatorEq sampleEntryAlice = true :=
  ⟨(AddressBookEntry.operatorEq_compares_friendlyName.1 sampleEntryAlice
      sampleEntryAliceAgain).2 rfl,
    AddressBookEntry.operatorEq_compares_friendlyName.2.2.1 sampleEntryAlice
      sampleEntryAliceAgain
      ((AddressBookEntry.operatorEq_compares_friendlyName.1 sampleEntryAlice
        sampleEntryAliceAgain).2 rfl)⟩

/-! ### The overlap check of the import job -/

namespace rocksdb

theorem overlapScan_spec {Key : Type} (compare : Key → Key → Int)
    (s : List (FilePointer Key)) :
    ∀ remaining i, s.length = i + remaining + 1 →
      (overlapScan compare s remaining i = .overlap
          ∧ ∃ k a b, i ≤ k ∧ s[k]? = some a ∧ s[k + 1]? = some b
              ∧ 0 ≤ compare a.2.largest_internal_key b.2.smallest_internal_key)
        ∨ (overlapScan compare s remaining i = .noOverlap
          ∧ ∀ k a b, i ≤ k → s[k]? = some a → s[k + 1]? = some b
              → compare a.2.largest_internal_key b.2.smallest_internal_key < 0) := by
  intro remaining
  induction remaining with
  | zero =>
    intro i hlen
    right
    refine ⟨rfl, ?_⟩
    intro k a b hik _ hb
    have := (List.getElem?_eq_some.1 hb).1
    omega
  | succ r ih =>
    intro i hlen
    have hi : i < s.length := by omega
    have hi1 : i + 1 < s.length := by omega
    have ha : s[i]? = some s[i] := List.getElem?_eq_getElem hi
    have hb : s[i + 1]? = some s[i + 1] := List.getElem?_eq_getElem hi1
    by_cases hc : 0 ≤ compare s[i].2.largest_internal_key s[i + 1].2.smallest_internal_key
    · left
      refine ⟨?_, i, s[i], s[i + 1], le_refl i, ha, hb, hc⟩
      simp only [overlapScan, ha, hb, ge_iff_le, hc, if_true]
    · have hstep : overlapScan compare s (r + 1) i = overlapScan compare s r (i + 1) := by
        simp only [overlapScan, ha, hb, ge_iff_le, hc, if_false]
      rw [hstep]
      rcases ih (i + 1) (by omega) with ⟨h1, k, a, b, hk, hka, hkb, hkc⟩ | ⟨h1, hall⟩
      · exact Or.inl ⟨h1, k, a, b, by omega, hka, hkb, hkc⟩
      · right
        refine ⟨h1, ?_⟩
        intro k a b hik hka hkb
        by_cases hki : k = i
        · subst hki
          rw [ha] at hka
          rw [hb] at hkb
          cases hka
          cases hkb
          exact lt_of_not_le hc
        · exact hall k a b (by omega) hka hkb

theorem ScanResult.cases_eq (r : ScanResult) :
    r = .noOverlap ∨ r = .overlap ∨ r = .outOfBounds := by
  cases r
  · exact Or.inl rfl
  · exact Or.inr (Or.inl rfl)
  · exact Or.inr (Or.inr rfl)

theorem checkLevels_spec {Key : Type} (job : ImportColumnFamilyJob Key)
    (files : List (IngestedFileInfo Key)) :
    ∀ remaining level,
      (∀ k : Nat, k < remaining → checkLevel job files (level + k) ≠ .outOfBounds) →
      (checkLevels job files remaining level = .overlappingRanges
          ∧ ∃ k : Nat, k < remaining ∧ checkLevel job files (level + k) = .overlap)
        ∨ (checkLevels job files remaining level = .continues
          ∧ ∀ k : Nat, k < remaining → checkLevel job files (level + k) = .noOverlap) := by
  intro remaining
  induction remaining with
  | zero =>
    intro level _
    right
    refine ⟨rfl, ?_⟩
    intro k hk
    omega
  | succ r ih =>
    intro level hsafe
    have h0 := hsafe 0 (by omega)
    simp only [Nat.cast_zero, add_zero] at h0
    rcases ScanResult.cases_eq (checkLevel job files level) with hl | hl | hl
    · have hstep : checkLevels job files (r + 1) level = checkLevels job files r (level + 1) := by
        simp only [checkLevels, hl]
      rw [hstep]
      have hshift : ∀ k : Nat, level + 1 + (k : Int) = level + ((k + 1 : Nat) : Int) := by
        intro k
        push_cast
        ring
      rcases ih (level + 1) (by
          intro k hk
          rw [hshift]
          exact hsafe (k + 1) (by omega)) with ⟨h1, k, hk, hkc⟩ | ⟨h1, hall⟩
      · left
        refine ⟨h1, k + 1, by omega, ?_⟩
        rw [← hshift]
        exact hkc
      · right
        refine ⟨h1, ?_⟩
        intro k hk
        cases k with
        | zero => simpa using hl
        | succ j =>
          rw [← hshift]
          exact hall j (by omega)
    · left
      refine ⟨by simp only [checkLevels, hl], 0, by omega, ?_⟩
      simpa using hl
    · exact absurd hl h0

theorem scanBound_of_pos (size : Nat) (hpos : 0 < size) (hsize : size < 2 ^ 64) :
    scanBound size = size - 1 := by
  unfold scanBound
  omega

theorem KeyOrder.refl {Key : Type} {compare : Key → Key → Int} (h : KeyOrder compare)
    (a : Key) : 0 ≤ compare a a := by
  by_contra hneg
  exact hneg ((h.swap a a).1 (le_of_lt (lt_of_not_le hneg)))

theorem smallestKeyLess_eq_false {Key : Type} (job : ImportColumnFamilyJob Key)
    (a b : FilePointer Key) :
    smallestKeyLess job b a = false
      ↔ 0 ≤ job.sstableKeyCompare b.2.smallest_internal_key a.2.smallest_internal_key := by
  unfold smallestKeyLess
  simp

/-- In a list sorted by smallest key, a later element is not below an earlier one. -/
theorem sorted_ge {Key : Type} (job : ImportColumnFamilyJob Key)
    (horder : KeyOrder job.sstableKeyCompare) (s : List (FilePointer Key))
    (hsorted : s.Pairwise (fun a b => smallestKeyLess job b a = false))
    (i j : Nat) (hij : i ≤ j) (hj : j < s.length) :
    0 ≤ job.sstableKeyCompare (s.get ⟨j, hj⟩).2.smallest_internal_key
      (s.get ⟨i, lt_of_le_of_lt hij hj⟩).2.smallest_internal_key := by
  rcases Nat.eq_or_lt_of_le hij with h | h
  · subst h
    exact horder.refl _
  · exact (smallestKeyLess_eq_false job _ _).1
      (List.pairwise_iff_getElem.1 hsorted i j (lt_of_le_of_lt hij hj) hj h)

/-- In a sorted list of distinct, well-formed files, two neighbours overlap exactly when two
files of the list overlap. -/
theorem neighbours_overlap_iff {Key : Type} (job : ImportColumnFamilyJob Key)
    (horder : KeyOrder job.sstableKeyCompare) (s : List (FilePointer Key))
    (hsorted : s.Pairwise (fun a b => smallestKeyLess job b a = false))
    (hdistinct : s.Pairwise (fun a b => a.1 ≠ b.1))
    (hvalid : ∀ a ∈ s,
      job.sstableKeyCompare a.2.smallest_internal_key a.2.largest_internal_key ≤ 0) :
    (∃ k a b, 0 ≤ k ∧ s[k]? = some a ∧ s[k + 1]? = some b
        ∧ 0 ≤ job.sstableKeyCompare a.2.largest_internal_key b.2.smallest_internal_key)
      ↔ ∃ a b, a ∈ s ∧ b ∈ s ∧ a.1 ≠ b.1
          ∧ job.sstableKeyCompare a.2.smallest_internal_key b.2.smallest_internal_key ≤ 0
          ∧ job.sstableKeyCompare b.2.smallest_internal_key a.2.largest_internal_key ≤ 0 := by
  constructor
  · rintro ⟨k, a, b, -, hka, hkb, hc⟩
    obtain ⟨hk, rfl⟩ := List.getElem?_eq_some.1 hka
    obtain ⟨hk1, rfl⟩ := List.getElem?_eq_some.1 hkb
    refine ⟨s[k], s[k + 1], List.getElem_mem _, List.getElem_mem _, ?_, ?_, ?_⟩
    · exact List.pairwise_iff_getElem.1 hdistinct k (k + 1) hk hk1 (Nat.lt_succ_self k)
    · exact (horder.swap _ _).2 (sorted_ge job horder s hsorted k (k + 1) (Nat.le_succ k) hk1)
    · exact (horder.swap _ _).2 hc
  · rintro ⟨a, b, ha, hb, hne, hlo, hhi⟩
    obtain ⟨p, hp, rfl⟩ := List.getElem_of_mem ha
    obtain ⟨q, hq, rfl⟩ := List.getElem_of_mem hb
    have hpq : p ≠ q := by
      intro h
      subst h
      exact hne rfl
    rcases Nat.lt_or_gt_of_ne hpq with hlt | hgt
    · have hp1 : p + 1 < s.length := by omega
      refine ⟨p, s[p], s[p + 1], Nat.zero_le p, List.getElem?_eq_getElem hp,
        List.getElem?_eq_getElem hp1, ?_⟩
      exact horder.trans _ _ _ ((horder.swap _ _).1 hhi)
        (sorted_ge job horder s hsorted (p + 1) q (by omega) hq)
    · have hq1 : q + 1 < s.length := by omega
      refine ⟨q, s[q], s[q + 1], Nat.zero_le q, List.getElem?_eq_getElem hq,
        List.getElem?_eq_getElem hq1, ?_⟩
      have h1 : 0 ≤ job.sstableKeyCompare s[q].2.largest_internal_key
          s[q].2.smallest_internal_key :=
        (horder.swap _ _).1 (hvalid s[q] (List.getElem_mem _))
      have h2 : 0 ≤ job.sstableKeyCompare s[q].2.smallest_internal_key
          s[p].2.smallest_internal_key := (horder.swap _ _).1 hlo
      exact horder.trans _ _ _ (horder.trans _ _ _ h1 h2)
        (sorted_ge job horder s hsorted (q + 1) p (by omega) hp)

theorem mem_levelFiles {Key : Type} (metadata : List LiveFileMetaData)
    (files : List (IngestedFileInfo Key)) (level : Int) (i : Nat) (f : IngestedFileInfo Key) :
    (i, f) ∈ levelFiles metadata files level
      ↔ ∃ m, metadata[i]? = some m ∧ files[i]? = some f ∧ m.level = level := by
  unfold levelFiles
  simp only [List.mem_map, List.mem_filter, decide_eq_true_eq]
  constructor
  · rintro ⟨⟨k, m, g⟩, ⟨hmem, hlev⟩, heq⟩
    simp only [Prod.mk.injEq] at heq
    obtain ⟨rfl, rfl⟩ := heq
    have hz := List.getElem?_zip_eq_some.1 (List.mk_mem_enum_iff_getElem?.1 hmem)
    exact ⟨m, hz.1, hz.2, hlev⟩
  · rintro ⟨m, hm, hf, hlev⟩
    refine ⟨(i, m, f), ⟨?_, hlev⟩, rfl⟩
    exact List.mk_mem_enum_iff_getElem?.2 (List.getElem?_zip_eq_some.2 ⟨hm, hf⟩)

theorem levelFiles_distinct {Key : Type} (metadata : List LiveFileMetaData)
    (files : List (IngestedFileInfo Key)) (level : Int) :
    ((levelFiles metadata files level).map Prod.fst).Nodup := by
  have hsub : ((levelFiles metadata files level).map Prod.fst).Sublist
      ((metadata.zip files).enum.map Prod.fst) := by
    unfold levelFiles
    rw [List.map_map]
    exact List.Sublist.map _ (List.filter_sublist _)
  rw [List.enum_map_fst] at hsub
  exact List.Nodup.sublist hsub (List.nodup_range _)

theorem levelFiles_length_le {Key : Type} (metadata : List LiveFileMetaData)
    (files : List (IngestedFileInfo Key)) (level : Int) :
    (levelFiles metadata files level).length ≤ files.length := by
  unfold levelFiles
  rw [List.length_map]
  refine le_trans (List.length_filter_le _ _) ?_
  rw [List.enum_length, List.length_zip]
  exact Nat.min_le_right _ _

theorem readFiles_length {Key : Type} (getInfo : String → Option (IngestedFileInfo Key)) :
    ∀ (metadata : List LiveFileMetaData) (files : List (IngestedFileInfo Key)),
      readFiles getInfo metadata = some files → files.length = metadata.length := by
  intro metadata
  induction metadata with
  | nil =>
    intro files h
    simp only [readFiles, Option.some.injEq] at h
    rw [← h]
    rfl
  | cons m rest ih =>
    intro files h
    simp only [readFiles] at h
    split at h
    · cases h
    · split at h
      · cases h
      · rename_i fs hfs
        simp only [Option.some.injEq] at h
        rw [← h, List.length_cons, List.length_cons, ih fs hfs]

theorem foldl_maxLevel (l : List LiveFileMetaData) :
    ∀ init : Int,
      init ≤ l.foldl (fun max_level file_metadata =>
          if file_metadata.level > max_level then file_metadata.level else max_level) init
        ∧ ∀ m ∈ l, m.level ≤ l.foldl (fun max_level file_metadata =>
          if file_metadata.level > max_level then file_metadata.level else max_level) init := by
  induction l with
  | nil =>
    intro init
    exact ⟨le_refl _, fun m hm => by cases hm⟩
  | cons x rest ih =>
    intro init
    simp only [List.foldl_cons, List.mem_cons]
    obtain ⟨h1, h2⟩ := ih (if x.level > init then x.level else init)
    constructor
    · refine le_trans ?_ h1
      split <;> omega
    · intro m hm
      rcases hm with rfl | hm
      · refine le_trans ?_ h1
        split <;> omega
      · exact h2 m hm

theorem le_maxLevel (metadata : List LiveFileMetaData) (m : LiveFileMetaData)
    (hm : m ∈ metadata) : m.level ≤ maxLevel metadata :=
  (foldl_maxLevel metadata (-1)).2 m hm

/-- The scan of a level that holds at least one file stays within `sorted_files`, and it
reports an overlap exactly when two distinct files of the level overlap. -/
theorem checkLevel_spec {Key : Type} (job : ImportColumnFamilyJob Key)
    (files : List (IngestedFileInfo Key)) (level : Int)
    (horder : KeyOrder job.sstableKeyCompare) (hsort : SortsBySmallestKey job)
    (hsize : files.length < 2 ^ 64)
    (hvalid : ∀ f ∈ files,
      job.sstableKeyCompare f.smallest_internal_key f.largest_internal_key ≤ 0)
    (hne : levelFiles job.metadata_ files level ≠ []) :
    checkLevel job files level ≠ .outOfBounds
      ∧ (checkLevel job files level = .overlap
        ↔ ∃ (i j : Nat) (ma mb : LiveFileMetaData) (fa fb : IngestedFileInfo Key), i ≠ j
            ∧ job.metadata_[i]? = some ma ∧ job.metadata_[j]? = some mb
            ∧ files[i]? = some fa ∧ files[j]? = some fb
            ∧ ma.level = level ∧ mb.level = level
            ∧ job.sstableKeyCompare fa.smallest_internal_key fb.smallest_internal_key ≤ 0
            ∧ job.sstableKeyCompare fb.smallest_internal_key fa.largest_internal_key ≤ 0) := by
  obtain ⟨hperm, hsorted⟩ := hsort (levelFiles job.metadata_ files level)
  have hlen := hperm.length_eq
  have hpos : 0 < (levelFiles job.metadata_ files level).length :=
    List.length_pos.2 hne
  have hle := levelFiles_length_le job.metadata_ files level
  have hbound : scanBound
      (job.sort (smallestKeyLess job) (levelFiles job.metadata_ files level)).length
      = (job.sort (smallestKeyLess job) (levelFiles job.metadata_ files level)).length - 1 :=
    scanBound_of_pos _ (by omega) (by omega)
  have hsum : (job.sort (smallestKeyLess job) (levelFiles job.metadata_ files level)).length
      = 0 + ((job.sort (smallestKeyLess job)
          (levelFiles job.metadata_ files level)).length - 1) + 1 := by
    omega
  have hdistinct : (job.sort (smallestKeyLess job)
      (levelFiles job.metadata_ files level)).Pairwise (fun a b => a.1 ≠ b.1) :=
    List.pairwise_map.1 ((hperm.map Prod.fst).nodup_iff.2
      (levelFiles_distinct job.metadata_ files level))
  have hmem : ∀ a : FilePointer Key,
      a ∈ job.sort (smallestKeyLess job) (levelFiles job.metadata_ files level)
        ↔ ∃ m, job.metadata_[a.1]? = some m ∧ files[a.1]? = some a.2 ∧ m.level = level := by
    intro a
    rw [hperm.mem_iff]
    exact mem_levelFiles job.metadata_ files level a.1 a.2
  have hvalid2 : ∀ a ∈ job.sort (smallestKeyLess job) (levelFiles job.metadata_ files level),
      job.sstableKeyCompare a.2.smallest_internal_key a.2.largest_internal_key ≤ 0 := by
    intro a ha
    obtain ⟨m, -, hf, -⟩ := (hmem a).1 ha
    exact hvalid a.2 (List.getElem?_mem hf)
  have hiff := neighbours_overlap_iff job horder _ hsorted hdistinct hvalid2
  have hpairs : (∃ a b,
        a ∈ job.sort (smallestKeyLess job) (levelFiles job.metadata_ files level)
        ∧ b ∈ job.sort (smallestKeyLess job) (levelFiles job.metadata_ files level)
        ∧ a.1 ≠ b.1
        ∧ job.sstableKeyCompare a.2.smallest_internal_key b.2.smallest_internal_key ≤ 0
        ∧ job.sstableKeyCompare b.2.smallest_internal_key a.2.largest_internal_key ≤ 0)
      ↔ ∃ (i j : Nat) (ma mb : LiveFileMetaData) (fa fb : IngestedFileInfo Key), i ≠ j
          ∧ job.metadata_[i]? = some ma ∧ job.metadata_[j]? = some mb
          ∧ files[i]? = some fa ∧ files[j]? = some fb
          ∧ ma.level = level ∧ mb.level = level
          ∧ job.sstableKeyCompare fa.smallest_internal_key fb.smallest_internal_key ≤ 0
          ∧ job.sstableKeyCompare fb.smallest_internal_key fa.largest_internal_key ≤ 0 := by
    constructor
    · rintro ⟨a, b, ha, hb, hne2, h1, h2⟩
      obtain ⟨ma, hma, hfa, hla⟩ := (hmem a).1 ha
      obtain ⟨mb, hmb, hfb, hlb⟩ := (hmem b).1 hb
      exact ⟨a.1, b.1, ma, mb, a.2, b.2, hne2, hma, hmb, hfa, hfb, hla, hlb, h1, h2⟩
    · rintro ⟨i, j, ma, mb, fa, fb, hij, hma, hmb, hfa, hfb, hla, hlb, h1, h2⟩
      exact ⟨(i, fa), (j, fb), (hmem (i, fa)).2 ⟨ma, hma, hfa, hla⟩,
        (hmem (j, fb)).2 ⟨mb, hmb, hfb, hlb⟩, hij, h1, h2⟩
  have hscan := overlapScan_spec job.sstableKeyCompare
    (job.sort (smallestKeyLess job) (levelFiles job.metadata_ files level))
    ((job.sort (smallestKeyLess job) (levelFiles job.metadata_ files level)).length - 1) 0
    hsum
  have hdef : checkLevel job files level
      = overlapScan job.sstableKeyCompare
          (job.sort (smallestKeyLess job) (levelFiles job.metadata_ files level))
          ((job.sort (smallestKeyLess job) (levelFiles job.metadata_ files level)).length - 1)
          0 := by
    unfold checkLevel
    simp only [hbound]
  rw [hdef, ← hpairs, ← hiff]
  rcases hscan with ⟨h1, hex⟩ | ⟨h1, hall⟩
  · rw [h1]
    exact ⟨by simp, ⟨fun _ => hex, fun _ => rfl⟩⟩
  · rw [h1]
    refine ⟨by simp, ⟨fun h => (by cases h), ?_⟩⟩
    rintro ⟨k, a, b, hk, hka, hkb, hc⟩
    exact absurd hc (not_le.2 (hall k a b hk hka hkb))

theorem Prepare_eq_checkLevels {Key : Type} (job : ImportColumnFamilyJob Key)
    (files : List (IngestedFileInfo Key))
    (hread : readFiles job.GetIngestedFileInfo job.metadata_ = some files)
    (hmany : 1 < files.length) :
    job.Prepare = checkLevels job files (maxLevel job.metadata_).toNat 1 := by
  have h0 : files.length ≠ 0 := by omega
  unfold ImportColumnFamilyJob.Prepare
  simp only [hread, h0, if_false, gt_iff_lt, hmany, if_true]

theorem levelFiles_ne_nil {Key : Type} (job : ImportColumnFamilyJob Key)
    (files : List (IngestedFileInfo Key))
    (hread : readFiles job.GetIngestedFileInfo job.metadata_ = some files)
    (level : Int) (m : LiveFileMetaData) (hm : m ∈ job.metadata_) (hlevel : m.level = level) :
    levelFiles job.metadata_ files level ≠ [] := by
  obtain ⟨i, hi⟩ := List.mem_iff_getElem?.1 hm
  have hlen := readFiles_length job.GetIngestedFileInfo job.metadata_ files hread
  have hilt : i < files.length := by
    rw [hlen]
    exact (List.getElem?_eq_some.1 hi).1
  exact List.ne_nil_of_mem
    ((mem_levelFiles job.metadata_ files level i files[i]).2
      ⟨m, hi, List.getElem?_eq_getElem hilt, hlevel⟩)

theorem readFiles_mem {Key : Type} (getInfo : String → Option (IngestedFileInfo Key)) :
    ∀ (metadata : List LiveFileMetaData) (files : List (IngestedFileInfo Key)),
      readFiles getInfo metadata = some files →
      ∀ f ∈ files, ∃ path, getInfo path = some f := by
  intro metadata
  induction metadata with
  | nil =>
    intro files h f hf
    simp only [readFiles, Option.some.injEq] at h
    rw [← h] at hf
    cases hf
  | cons m rest ih =>
    intro files h f hf
    simp only [readFiles] at h
    split at h
    · cases h
    · rename_i file_to_import hinfo
      split at h
      · cases h
      · rename_i fs hfs
        simp only [Option.some.injEq] at h
        rw [← h] at hf
        rcases List.mem_cons.1 hf with rfl | hmem
        · exact ⟨_, hinfo⟩
        · exact ih fs hfs f hmem

/-- A file read from a table in key order has its smallest key not above its largest key:
they are the first and the last key of the table. -/
theorem GetIngestedFileInfo_in_order {Key : Type} (job : ImportColumnFamilyJob Key)
    (horder : KeyOrder job.sstableKeyCompare) (htables : TablesInKeyOrder job)
    (path : String) (f : IngestedFileInfo Key)
    (hf : job.GetIngestedFileInfo path = some f) :
    job.sstableKeyCompare f.smallest_internal_key f.largest_internal_key ≤ 0 := by
  unfold ImportColumnFamilyJob.GetIngestedFileInfo at hf
  split at hf
  · cases hf
  · rename_i table htable
    have hord := htables path table htable
    split at hf
    · rename_i smallest hhead
      split at hf
      · rename_i largest hlast
        simp only [Option.some.injEq] at hf
        rw [← hf]
        show job.sstableKeyCompare smallest largest ≤ 0
        cases hentries : table.entries with
        | nil =>
          rw [hentries] at hhead
          cases hhead
        | cons x rest =>
          rw [hentries] at hhead hlast hord
          simp only [List.head?_cons, Option.some.injEq] at hhead
          subst hhead
          cases hrest : rest with
          | nil =>
            rw [hrest] at hlast
            simp only [List.getLast?_singleton, Option.some.injEq] at hlast
            rw [← hlast]
            exact (horder.swap _ _).2 (horder.refl _)
          | cons y more =>
            rw [hrest] at hlast hord
            have hmem : some largest ∈ y :: more := by
              rw [List.getLast?_cons_cons] at hlast
              exact List.mem_of_getLast?_eq_some hlast
            exact (List.pairwise_cons.1 hord).1 (some largest) hmem smallest largest rfl rfl
      · cases hf
    · cases hf

/-- Claim C21: in `ImportColumnFamilyJob::Prepare`, when more than one file is imported,
the information of every file is read successfully and every level from 1 up to the
highest level present holds at least one file, `Prepare` returns InvalidArgument "Files
have overlapping ranges" exactly when some level `L >= 1` holds two distinct files `a`, `b`
with `smallest(a) <= smallest(b) <= largest(a)`: whatever order `std::sort` gives to files
with equal smallest keys, the comparison of neighbours finds every such pair, and files of
level 0 are never compared. The comparison is an order on the keys, `std::sort` sorts, and
the tables are in key order. -/
theorem Prepare_overlapping_iff {Key : Type} (job : ImportColumnFamilyJob Key)
    (files : List (IngestedFileInfo Key))
    (horder : KeyOrder job.sstableKeyCompare) (hsort : SortsBySmallestKey job)
    (htables : TablesInKeyOrder job)
    (hread : readFiles job.GetIngestedFileInfo job.metadata_ = some files)
    (hmany : 1 < files.length) (hsize : files.length < 2 ^ 64)
    (hlevels : ∀ level : Int, 1 ≤ level → level ≤ maxLevel job.metadata_ →
      ∃ m ∈ job.metadata_, m.level = level) :
    job.Prepare = .overlappingRanges
      ↔ ∃ (level : Int) (i j : Nat) (ma mb : LiveFileMetaData) (fa fb : IngestedFileInfo Key),
          1 ≤ level ∧ i ≠ j
            ∧ job.metadata_[i]? = some ma ∧ job.metadata_[j]? = some mb
            ∧ files[i]? = some fa ∧ files[j]? = some fb
            ∧ ma.level = level ∧ mb.level = level
            ∧ job.sstableKeyCompare fa.smallest_internal_key fb.smallest_internal_key ≤ 0
            ∧ job.sstableKeyCompare fb.smallest_internal_key fa.largest_internal_key ≤ 0 := by
  have hvalid : ∀ f ∈ files,
      job.sstableKeyCompare f.smallest_internal_key f.largest_internal_key ≤ 0 := by
    intro f hf
    obtain ⟨path, hpath⟩ := readFiles_mem job.GetIngestedFileInfo job.metadata_ files hread f hf
    exact GetIngestedFileInfo_in_order job horder htables path f hpath
  rw [Prepare_eq_checkLevels job files hread hmany]
  have hspec : ∀ level : Int, 1 ≤ level → level ≤ maxLevel job.metadata_ →
      checkLevel job files level ≠ .outOfBounds
        ∧ (checkLevel job files level = .overlap
          ↔ ∃ (i j : Nat) (ma mb : LiveFileMetaData) (fa fb : IngestedFileInfo Key), i ≠ j
              ∧ job.metadata_[i]? = some ma ∧ job.metadata_[j]? = some mb
              ∧ files[i]? = some fa ∧ files[j]? = some fb
              ∧ ma.level = level ∧ mb.level = level
              ∧ job.sstableKeyCompare fa.smallest_internal_key fb.smallest_internal_key ≤ 0
              ∧ job.sstableKeyCompare fb.smallest_internal_key fa.largest_internal_key ≤ 0) := by
    intro level h1 h2
    obtain ⟨m, hm, hl⟩ := hlevels level h1 h2
    exact checkLevel_spec job files level horder hsort hsize hvalid
      (levelFiles_ne_nil job files hread level m hm hl)
  have hbound : ∀ k : Nat, k < (maxLevel job.metadata_).toNat →
      (1 : Int) ≤ 1 + (k : Int) ∧ 1 + (k : Int) ≤ maxLevel job.metadata_ := by
    intro k hk
    omega
  have hsafe : ∀ k : Nat, k < (maxLevel job.metadata_).toNat →
      checkLevel job files (1 + k) ≠ .outOfBounds :=
    fun k hk => (hspec (1 + k) (hbound k hk).1 (hbound k hk).2).1
  constructor
  · intro h
    rcases checkLevels_spec job files (maxLevel job.metadata_).toNat 1 hsafe with
      ⟨-, k, hk, hkc⟩ | ⟨h1, -⟩
    · obtain ⟨i, j, ma, mb, fa, fb, hrest⟩ :=
        (hspec (1 + k) (hbound k hk).1 (hbound k hk).2).2.1 hkc
      exact ⟨1 + k, i, j, ma, mb, fa, fb, (hbound k hk).1, hrest⟩
    · rw [h1] at h
      cases h
  · rintro ⟨level, i, j, ma, mb, fa, fb, hl1, hij, hma, hmb, hfa, hfb, hla, hlb, h1, h2⟩
    have hmax : level ≤ maxLevel job.metadata_ := by
      rw [← hla]
      exact le_maxLevel job.metadata_ ma (List.getElem?_mem hma)
    have hover : checkLevel job files level = .overlap :=
      (hspec level hl1 hmax).2.2 ⟨i, j, ma, mb, fa, fb, hij, hma, hmb, hfa, hfb, hla, hlb, h1, h2⟩
    rcases checkLevels_spec job files (maxLevel job.metadata_).toNat 1 hsafe with
      ⟨h3, -⟩ | ⟨-, hall⟩
    · exact h3
    · have hk : (level - 1).toNat < (maxLevel job.metadata_).toNat := by omega
      have hno := hall (level - 1).toNat hk
      have hcast : (1 : Int) + ((level - 1).toNat : Int) = level := by omega
      rw [hcast, hover] at hno
      cases hno

theorem sampleJob_order (files : List (String × Int × Int × Nat)) :
    KeyOrder (sampleJob files).sstableKeyCompare := by
  constructor
  · intro a b
    show a - b ≤ 0 ↔ 0 ≤ b - a
    omega
  · intro a b c h1 h2
    have h1' : 0 ≤ a - b := h1
    have h2' : 0 ≤ b - c := h2
    show 0 ≤ a - c
    omega

theorem sampleJob_tables (files : List (String × Int × Int × Nat)) :
    TablesInKeyOrder (sampleJob files) := by
  intro path table htable
  have htable2 : (files.find? (fun f => "db/" ++ f.1 = path)).map
      (fun f => ({ num_entries := 2, entries := [some f.2.2.1, some (f.2.2.1 + f.2.2.2)] } :
        ExternalTable Int)) = some table := htable
  obtain ⟨f, -, hf⟩ := Option.map_eq_some'.1 htable2
  rw [← hf]
  simp only [List.pairwise_cons, List.mem_singleton, List.not_mem_nil, false_implies,
    implies_true, List.Pairwise.nil, and_true]
  intro y hy a b ha hb
  subst hy
  simp only [Option.some.injEq] at ha hb
  subst ha hb
  show f.2.2.1 - (f.2.2.1 + (f.2.2.2 : Int)) ≤ 0
  omega

theorem sampleSort_sorts {Key : Type} (job : ImportColumnFamilyJob Key)
    (horder : KeyOrder job.sstableKeyCompare) (hs : job.sort = sampleSort) :
    SortsBySmallestKey job := by
  intro l
  rw [hs]
  unfold sampleSort
  haveI : IsTotal (FilePointer Key) (fun a b => smallestKeyLess job b a = false) := by
    constructor
    intro a b
    simp only [smallestKeyLess_eq_false]
    by_cases h : 0 ≤ job.sstableKeyCompare b.2.smallest_internal_key a.2.smallest_internal_key
    · exact Or.inl h
    · exact Or.inr ((horder.swap _ _).1 (le_of_lt (lt_of_not_le h)))
  haveI : IsTrans (FilePointer Key) (fun a b => smallestKeyLess job b a = false) := by
    constructor
    intro a b c hab hbc
    simp only [smallestKeyLess_eq_false] at hab hbc ⊢
    exact horder.trans _ _ _ hbc hab
  exact ⟨List.perm_insertionSort _ l, List.sorted_insertionSort _ l⟩

/-- The theorem of claim C21 at `overlappingSample`: two files of level 1 with the ranges
1 to 5 and 3 to 4. -/
theorem Prepare_overlapping_iff_witness :
    overlappingSample.Prepare = .overlappingRanges
      ↔ ∃ (level : Int) (i j : Nat) (ma mb : LiveFileMetaData) (fa fb : IngestedFileInfo Int),
          1 ≤ level ∧ i ≠ j
            ∧ overlappingSample.metadata_[i]? = some ma
            ∧ overlappingSample.metadata_[j]? = some mb
            ∧ [(⟨1, 5, 2⟩ : IngestedFileInfo Int), ⟨3, 4, 2⟩][i]? = some fa
            ∧ [(⟨1, 5, 2⟩ : IngestedFileInfo Int), ⟨3, 4, 2⟩][j]? = some fb
            ∧ ma.level = level ∧ mb.level = level
            ∧ overlappingSample.sstableKeyCompare fa.smallest_internal_key
                fb.smallest_internal_key ≤ 0
            ∧ overlappingSample.sstableKeyCompare fb.smallest_internal_key
                fa.largest_internal_key ≤ 0 :=
  Prepare_overlapping_iff overlappingSample [⟨1, 5, 2⟩, ⟨3, 4, 2⟩]
    (sampleJob_order _) (sampleSort_sorts _ (sampleJob_order _) rfl) (sampleJob_tables _)
    rfl (by decide) (by norm_num)
    (by
      intro level h1 h2
      have hmax : maxLevel overlappingSample.metadata_ = 1 := by decide
      rw [hmax] at h2
      have hl : level = 1 := le_antisymm h2 h1
      subst hl
      exact ⟨_, List.mem_cons_self _ _, rfl⟩)

/-- Claim C26, evaluated where the code departs from it. The two files of
`skippedLevelSample` have the levels 0 and 2, so level 1 holds no file: `sorted_files` is
empty, the bound `sorted_files.size() - 1` wraps around to `2 ^ 64 - 1`, and the first
iteration of the scan reads `sorted_files[0]` and `sorted_files[1]`, indices that are not
below the size 0. -/
theorem Prepare_reads_past_empty_level :
    readFiles skippedLevelSample.GetIngestedFileInfo skippedLevelSample.metadata_
        = some [⟨1, 2, 2⟩, ⟨3, 4, 2⟩]
      ∧ maxLevel skippedLevelSample.metadata_ = 2
      ∧ levelFiles skippedLevelSample.metadata_
          [(⟨1, 2, 2⟩ : IngestedFileInfo Int), ⟨3, 4, 2⟩] 1 = []
      ∧ scanBound 0 = 2 ^ 64 - 1
      ∧ checkLevel skippedLevelSample [⟨1, 2, 2⟩, ⟨3, 4, 2⟩] 1 = .outOfBounds
      ∧ skippedLevelSample.Prepare = .outOfBounds := by
  refine ⟨rfl, by decide, rfl, by decide, by decide, by decide⟩

end rocksdb
